import Mathlib

/-!
# okiya-elm: the persistence bridge of `src/index.js`

The script mounts the compiled application and wires two of its ports to the
browser's `localStorage`:

* `readLocalStorage` reads the entry `savedGame`, runs `JSON.parse` on it and
  sends the result on the port `gameLoaded`;
* the subscriber of `saveGame` writes `JSON.stringify(data)` under `savedGame`;
* the subscriber of `loadGame` calls `readLocalStorage`.

The three functions are embedded as state transformers over a `World`
(storage, messages sent on `gameLoaded`, calls made to `setItem`).  The host
functions they call (`JSON.stringify`, `JSON.parse`, `localStorage.getItem`,
`localStorage.setItem`) are embedded after ECMA-262 and the HTML Standard.

Conventions of the embedding:

* a JavaScript string is the list of its UTF-16 code units;
* a finite Number is kept as an exact decimal `0.d₁…d_k × 10ⁿ`; the rounding
  and the bounded range of binary floating point are outside the embedding,
  and `-0` is identified with `0` (as `===` does);
* an object is the list of its properties in property order; the reordering
  of array-index keys is outside the embedding;
* the storage object is assumed to be accessible; a write it refuses is a
  `QuotaExceededError`.
-/

namespace Okiya

/-! ## JavaScript values -/

/-- A JavaScript string, as the sequence of its UTF-16 code units. -/
abbrev JSString := List Nat

/-- UTF-16 code units of one Unicode scalar value. -/
def utf16Char (c : Char) : List Nat :=
  if c.toNat < 0x10000 then [c.toNat]
  else [0xD800 + (c.toNat - 0x10000) / 0x400, 0xDC00 + (c.toNat - 0x10000) % 0x400]

/-- The JavaScript string written by a string literal. -/
def utf16 (s : String) : JSString :=
  (s.toList.map utf16Char).flatten

/-- The exceptions that the host functions used by the script can throw. -/
inductive JSError where
  | SyntaxError
  | TypeError
  | QuotaExceededError
  deriving DecidableEq, Repr

/-- A finite Number as an exact decimal: `digits` are the significant decimal
digits `d₁…d_k`, most significant first, and the value is
`± 0.d₁…d_k × 10 ^ exp` (the `s`, `k`, `n` of `Number::toString`).  Zero has no
digits. -/
structure JSNumber where
  neg : Bool
  digits : List Nat
  exp : Int
  deriving DecidableEq, Repr

/-- The JavaScript values of the embedding: what the port `saveGame` can hand
to its subscriber and what `JSON.parse` can return. -/
inductive JSValue where
  | undefined
  | null
  | bool (b : Bool)
  | num (x : JSNumber)
  | nan
  | infinity (neg : Bool)
  | bigint (i : Int)
  | str (s : JSString)
  | arr (elements : List JSValue)
  | obj (properties : List (JSString × JSValue))

/-! ## Numbers -/

/-- Decimal digits of a natural number, most significant first, by repeated
division (`fuel` bounds the number of digits). -/
def natDigitsAux : Nat → Nat → List Nat → List Nat
  | 0, _, acc => acc
  | fuel + 1, n, acc =>
    if n < 10 then n :: acc else natDigitsAux fuel (n / 10) (n % 10 :: acc)

/-- Decimal digits of a natural number, most significant first; `[0]` for 0. -/
def natDigits (n : Nat) : List Nat :=
  natDigitsAux (n + 1) n []

/-- The natural number written by a list of decimal digits. -/
def digitsValue (ds : List Nat) : Nat :=
  ds.foldl (fun acc d => 10 * acc + d) 0

/-- Removes leading zero digits; each one removed lowers the exponent. -/
def stripLeadingZeros : List Nat → Int → List Nat × Int
  | [], n => ([], n)
  | d :: ds, n => if d = 0 then stripLeadingZeros ds (n - 1) else (d :: ds, n)

/-- Removes the zero digits at the end of a digit list. -/
def stripTrailingZeros : List Nat → List Nat
  | [] => []
  | d :: ds =>
    match stripTrailingZeros ds with
    | [] => if d = 0 then [] else [d]
    | ds' => d :: ds'

/-- The Number with sign `neg` and value `0.ds × 10 ^ n`, in normal form: no
leading or trailing zero digit, and zero is unsigned with exponent 0. -/
def JSNumber.normalize (neg : Bool) (ds : List Nat) (n : Int) : JSNumber :=
  match stripLeadingZeros ds n with
  | (ds', n') =>
    match stripTrailingZeros ds' with
    | [] => ⟨false, [], 0⟩
    | d :: tl => ⟨neg, d :: tl, n'⟩

/-- The Number that is a given integer. -/
def JSNumber.ofInt (i : Int) : JSNumber :=
  JSNumber.normalize (decide (i < 0)) (natDigits i.natAbs) (natDigits i.natAbs).length

/-- Normal form of a Number: decimal digits, the first and the last nonzero;
zero is `⟨false, [], 0⟩`. -/
def JSNumber.isNormal (x : JSNumber) : Bool :=
  match x.digits with
  | [] => !x.neg && decide (x.exp = 0)
  | d :: ds =>
    (d :: ds).all (fun u => decide (u < 10)) && decide (d ≠ 0) &&
      decide ((d :: ds).getLast? ≠ some 0)

/-- Code units of a list of decimal digits. -/
def digitChars (ds : List Nat) : List Nat :=
  ds.map (fun d => 48 + d)

/-- `Number::toString(x, 10)` for a finite Number (ECMA-262 6.1.6.1.20), with
`k` the number of digits and `n` the exponent:
plain digits padded with zeros when `k ≤ n ≤ 21`; a decimal point inside the
digits when `0 < n ≤ 21`; `0.` and `-n` zeros before the digits when
`-6 < n ≤ 0`; otherwise exponential form with exponent `n - 1`. -/
def JSNumber.toString (x : JSNumber) : JSString :=
  match x.digits with
  | [] => [48]
  | d :: ds =>
    let k : Int := ((d :: ds).length : Nat)
    let n := x.exp
    (if x.neg then [45] else []) ++
      (if k ≤ n ∧ n ≤ 21 then
        digitChars (d :: ds) ++ List.replicate (n - k).toNat 48
      else if 0 < n ∧ n ≤ 21 then
        digitChars ((d :: ds).take n.toNat) ++ 46 :: digitChars ((d :: ds).drop n.toNat)
      else if -6 < n ∧ n ≤ 0 then
        48 :: 46 :: (List.replicate (-n).toNat 48 ++ digitChars (d :: ds))
      else
        (48 + d) :: ((if ds = [] then [] else 46 :: digitChars ds) ++
          101 :: (if 0 ≤ n - 1 then 43 else 45) :: digitChars (natDigits (n - 1).natAbs)))

/-! ## JSON.stringify -/

/-- Code units of `null`. -/
def nullText : JSString := [110, 117, 108, 108]

/-- Code units of `true`. -/
def trueText : JSString := [116, 114, 117, 101]

/-- Code units of `false`. -/
def falseText : JSString := [102, 97, 108, 115, 101]

/-- Code units of `undefined`. -/
def undefinedText : JSString := [117, 110, 100, 101, 102, 105, 110, 101, 100]

/-- Lower-case hexadecimal digit. -/
def hexDigit (d : Nat) : Nat :=
  if d < 10 then 48 + d else 87 + d

/-- `UnicodeEscape`: a backslash, `u` and four lower-case hexadecimal digits. -/
def unicodeEscape (u : Nat) : List Nat :=
  [92, 117, hexDigit (u / 4096 % 16), hexDigit (u / 256 % 16), hexDigit (u / 16 % 16),
    hexDigit (u % 16)]

/-- Leading (high) surrogate code unit. -/
def isLeadingSurrogate (u : Nat) : Bool :=
  decide (0xD800 ≤ u) && decide (u ≤ 0xDBFF)

/-- Trailing (low) surrogate code unit. -/
def isTrailingSurrogate (u : Nat) : Bool :=
  decide (0xDC00 ≤ u) && decide (u ≤ 0xDFFF)

/-- The escape of one code unit that is not the first half of a surrogate
pair (ECMA-262 25.5.2.3, table 75): the two-character escapes, a
`UnicodeEscape` for other control characters and for lone surrogates, the
code unit itself otherwise. -/
def quoteUnit (u : Nat) : List Nat :=
  if u = 8 then [92, 98]
  else if u = 9 then [92, 116]
  else if u = 10 then [92, 110]
  else if u = 12 then [92, 102]
  else if u = 13 then [92, 114]
  else if u = 34 then [92, 34]
  else if u = 92 then [92, 92]
  else if u < 32 ∨ isLeadingSurrogate u ∨ isTrailingSurrogate u then unicodeEscape u
  else [u]

/-- The body of `QuoteJSONString`: the escapes of the code points of a string.
A leading surrogate followed by a trailing one is one code point and is
copied; any other surrogate is a code point of its own and is escaped. -/
def quoteUnits : List Nat → List Nat
  | [] => []
  | [u] => quoteUnit u
  | u :: v :: rest =>
    if isLeadingSurrogate u ∧ isTrailingSurrogate v then u :: v :: quoteUnits rest
    else quoteUnit u ++ quoteUnits (v :: rest)

/-- `QuoteJSONString` (ECMA-262 25.5.2.3). -/
def quoteJSONString (s : JSString) : JSString :=
  34 :: (quoteUnits s ++ [34])

/-- Joins the parts with commas. -/
def joinComma : List JSString → JSString
  | [] => []
  | [s] => s
  | s :: t :: rest => s ++ 44 :: joinComma (t :: rest)

mutual
/-- `SerializeJSONProperty` without replacer and gap (ECMA-262 25.5.2.2):
`none` is the result `undefined`.  A BigInt throws a TypeError, a Number that
is not finite gives `null`. -/
def serializeJSONProperty : JSValue → Except JSError (Option JSString)
  | .undefined => .ok none
  | .null => .ok (some nullText)
  | .bool b => .ok (some (if b then trueText else falseText))
  | .num x => .ok (some x.toString)
  | .nan => .ok (some nullText)
  | .infinity _ => .ok (some nullText)
  | .bigint _ => .error .TypeError
  | .str s => .ok (some (quoteJSONString s))
  | .arr elements =>
    match serializeJSONArray elements with
    | .error e => .error e
    | .ok parts => .ok (some (91 :: (joinComma parts ++ [93])))
  | .obj properties =>
    match serializeJSONObject properties with
    | .error e => .error e
    | .ok parts => .ok (some (123 :: (joinComma parts ++ [125])))
/-- The element texts of `SerializeJSONArray`: an element whose serialization
is `undefined` is written `null`. -/
def serializeJSONArray : List JSValue → Except JSError (List JSString)
  | [] => .ok []
  | v :: vs =>
    match serializeJSONProperty v with
    | .error e => .error e
    | .ok strP =>
      match serializeJSONArray vs with
      | .error e => .error e
      | .ok parts => .ok (strP.getD nullText :: parts)
/-- The member texts of `SerializeJSONObject`: a property whose serialization
is `undefined` is left out. -/
def serializeJSONObject : List (JSString × JSValue) → Except JSError (List JSString)
  | [] => .ok []
  | (k, v) :: ps =>
    match serializeJSONProperty v with
    | .error e => .error e
    | .ok strP =>
      match serializeJSONObject ps with
      | .error e => .error e
      | .ok parts =>
        match strP with
        | none => .ok parts
        | some s => .ok ((quoteJSONString k ++ 58 :: s) :: parts)
end

/-- `JSON.stringify(value)` with one argument: the JSON text of the value,
`none` for the result `undefined`, or the exception thrown. -/
def JSON.stringify (value : JSValue) : Except JSError (Option JSString) :=
  serializeJSONProperty value

/-! ## JSON.parse -/

/-- JSON white space: tab, line feed, carriage return, space. -/
def isWhiteSpace (u : Nat) : Bool :=
  decide (u = 9) || decide (u = 10) || decide (u = 13) || decide (u = 32)

/-- Drops the white space at the start of the input. -/
def skipWS : List Nat → List Nat
  | [] => []
  | u :: r => if isWhiteSpace u then skipWS r else u :: r

/-- How the parser fails: the text is not JSON, or the recursion bound of the
embedding was reached (`JSON.parse` gives it a bound that is never reached). -/
inductive ParseFail where
  | invalid
  | outOfFuel
  deriving DecidableEq, Repr

/-- The input after the given word, when it starts with it. -/
def expect : List Nat → List Nat → Option (List Nat)
  | [], input => some input
  | _ :: _, [] => none
  | c :: cs, u :: r => if c = u then expect cs r else none

/-- Decimal digit code unit. -/
def isDigit (u : Nat) : Bool :=
  decide (48 ≤ u) && decide (u ≤ 57)

/-- The longest run of decimal digits at the start of the input, as digit
values, and the input after it. -/
def takeDigits : List Nat → List Nat × List Nat
  | [] => ([], [])
  | u :: r =>
    if isDigit u then ((u - 48) :: (takeDigits r).1, (takeDigits r).2) else ([], u :: r)

/-- The integer part of a JSON number: `0`, or digits that start with 1-9. -/
def parseInteger (input : List Nat) : Option (List Nat × List Nat) :=
  match input with
  | [] => none
  | u :: r =>
    if u = 48 then some ([0], r)
    else if isDigit u then some (takeDigits (u :: r))
    else none

/-- The optional fraction of a JSON number: a point and at least one digit. -/
def parseFraction (input : List Nat) : Option (List Nat × List Nat) :=
  match input with
  | [] => some ([], [])
  | u :: r =>
    if u = 46 then
      match takeDigits r with
      | ([], _) => none
      | (d :: ds, r1) => some (d :: ds, r1)
    else some ([], u :: r)

/-- The optional exponent of a JSON number: `e` or `E`, an optional sign and at
least one digit. -/
def parseExponent (input : List Nat) : Option (Int × List Nat) :=
  match input with
  | [] => some (0, [])
  | u :: r =>
    if u = 101 ∨ u = 69 then
      match r with
      | [] => none
      | s :: r1 =>
        if s = 45 then
          match takeDigits r1 with
          | ([], _) => none
          | (d :: ds, r2) => some (-(digitsValue (d :: ds) : Int), r2)
        else if s = 43 then
          match takeDigits r1 with
          | ([], _) => none
          | (d :: ds, r2) => some ((digitsValue (d :: ds) : Int), r2)
        else
          match takeDigits (s :: r1) with
          | ([], _) => none
          | (d :: ds, r2) => some ((digitsValue (d :: ds) : Int), r2)
    else some (0, u :: r)

/-- A JSON number without its sign, and its value under the sign `neg`: with
integer digits `i`, fraction digits `f` and exponent `e` the value is
`± 0.if × 10 ^ (length i + e)`. -/
def parseUnsigned (neg : Bool) (input : List Nat) : Option (JSNumber × List Nat) :=
  match parseInteger input with
  | none => none
  | some (ints, r1) =>
    match parseFraction r1 with
    | none => none
    | some (fracs, r2) =>
      match parseExponent r2 with
      | none => none
      | some (e, r3) =>
        some (JSNumber.normalize neg (ints ++ fracs) ((ints.length : Nat) + e), r3)

/-- A JSON number at the start of the input: an optional minus sign, integer
part, optional fraction, optional exponent. -/
def parseNumber (input : List Nat) : Option (JSNumber × List Nat) :=
  match input with
  | [] => none
  | u :: r => if u = 45 then parseUnsigned true r else parseUnsigned false (u :: r)

/-- Value of a hexadecimal digit, upper or lower case. -/
def hexVal (u : Nat) : Option Nat :=
  if 48 ≤ u ∧ u ≤ 57 then some (u - 48)
  else if 97 ≤ u ∧ u ≤ 102 then some (u - 87)
  else if 65 ≤ u ∧ u ≤ 70 then some (u - 55)
  else none

/-- The code unit written by a two-character escape. -/
def unescape (e : Nat) : Option Nat :=
  if e = 34 then some 34
  else if e = 92 then some 92
  else if e = 47 then some 47
  else if e = 98 then some 8
  else if e = 102 then some 12
  else if e = 110 then some 10
  else if e = 114 then some 13
  else if e = 116 then some 9
  else none

/-- Puts a code unit in front of a parsed string. -/
def consUnit (u : Nat) : Option (JSString × List Nat) → Option (JSString × List Nat)
  | none => none
  | some (s, r) => some (u :: s, r)

/-- A JSON string after its opening quote: the code units up to the closing
quote, escapes resolved, and the input after the quote.  A control character
below U+0020 is not allowed unescaped. -/
def parseStringBody : List Nat → Option (JSString × List Nat)
  | [] => none
  | u :: r =>
    if u = 34 then some ([], r)
    else if u = 92 then
      match r with
      | [] => none
      | e :: r1 =>
        if e = 117 then
          match r1 with
          | a :: b :: c :: d :: r2 =>
            match hexVal a, hexVal b, hexVal c, hexVal d with
            | some a, some b, some c, some d =>
              consUnit (((a * 16 + b) * 16 + c) * 16 + d) (parseStringBody r2)
            | _, _, _, _ => none
          | _ => none
        else
          match unescape e with
          | none => none
          | some ch => consUnit ch (parseStringBody r1)
    else if u < 32 then none
    else consUnit u (parseStringBody r)

/-- Defines property `k` of an object under construction: a key that is
already there keeps its place and takes the new value. -/
def setProperty : List (JSString × JSValue) → JSString → JSValue → List (JSString × JSValue)
  | [], k, v => [(k, v)]
  | (k', v') :: ps, k, v =>
    if k' = k then (k', v) :: ps else (k', v') :: setProperty ps k v

/-- The object with the given members, defined in the order of the text. -/
def buildObject (members : List (JSString × JSValue)) : List (JSString × JSValue) :=
  members.foldl (fun ps m => setProperty ps m.1 m.2) []

mutual
/-- A JSON value at the start of the input (white space already skipped) and
the input after it. -/
def parseValue : Nat → List Nat → Except ParseFail (JSValue × List Nat)
  | 0, _ => .error .outOfFuel
  | fuel + 1, input =>
    match input with
    | [] => .error .invalid
    | u :: r =>
      if u = 110 then
        match expect [117, 108, 108] r with
        | some r1 => .ok (.null, r1)
        | none => .error .invalid
      else if u = 116 then
        match expect [114, 117, 101] r with
        | some r1 => .ok (.bool true, r1)
        | none => .error .invalid
      else if u = 102 then
        match expect [97, 108, 115, 101] r with
        | some r1 => .ok (.bool false, r1)
        | none => .error .invalid
      else if u = 34 then
        match parseStringBody r with
        | some (s, r1) => .ok (.str s, r1)
        | none => .error .invalid
      else if u = 91 then
        match skipWS r with
        | [] => .error .invalid
        | c :: r1 =>
          if c = 93 then .ok (.arr [], r1)
          else
            match parseElements fuel (c :: r1) with
            | .error e => .error e
            | .ok (vs, r2) => .ok (.arr vs, r2)
      else if u = 123 then
        match skipWS r with
        | [] => .error .invalid
        | c :: r1 =>
          if c = 125 then .ok (.obj [], r1)
          else
            match parseMembers fuel (c :: r1) with
            | .error e => .error e
            | .ok (ms, r2) => .ok (.obj (buildObject ms), r2)
      else
        match parseNumber (u :: r) with
        | some (x, r1) => .ok (.num x, r1)
        | none => .error .invalid
/-- The elements of a nonempty array up to its closing bracket. -/
def parseElements : Nat → List Nat → Except ParseFail (List JSValue × List Nat)
  | 0, _ => .error .outOfFuel
  | fuel + 1, input =>
    match parseValue fuel input with
    | .error e => .error e
    | .ok (v, r) =>
      match skipWS r with
      | [] => .error .invalid
      | c :: r1 =>
        if c = 93 then .ok ([v], r1)
        else if c = 44 then
          match parseElements fuel (skipWS r1) with
          | .error e => .error e
          | .ok (vs, r2) => .ok (v :: vs, r2)
        else .error .invalid
/-- The members of a nonempty object up to its closing brace. -/
def parseMembers : Nat → List Nat → Except ParseFail (List (JSString × JSValue) × List Nat)
  | 0, _ => .error .outOfFuel
  | fuel + 1, input =>
    match input with
    | [] => .error .invalid
    | q :: r =>
      if q = 34 then
        match parseStringBody r with
        | none => .error .invalid
        | some (k, r1) =>
          match skipWS r1 with
          | [] => .error .invalid
          | c :: r2 =>
            if c = 58 then
              match parseValue fuel (skipWS r2) with
              | .error e => .error e
              | .ok (v, r3) =>
                match skipWS r3 with
                | [] => .error .invalid
                | d :: r4 =>
                  if d = 125 then .ok ([(k, v)], r4)
                  else if d = 44 then
                    match parseMembers fuel (skipWS r4) with
                    | .error e => .error e
                    | .ok (ms, r5) => .ok ((k, v) :: ms, r5)
                  else .error .invalid
            else .error .invalid
      else .error .invalid
end

/-- `JSON.parse(text)` with one argument (ECMA-262 25.5.1).  The argument is
first converted to a string: `none` is the argument `null`, whose string is
`null`.  The text must be one JSON value between optional white space;
anything else throws a SyntaxError. -/
def JSON.parse (text : Option JSString) : Except JSError JSValue :=
  let jsonString := text.getD nullText
  match parseValue (2 * jsonString.length + 1) (skipWS jsonString) with
  | .error _ => .error .SyntaxError
  | .ok (v, r) => if skipWS r = [] then .ok v else .error .SyntaxError

/-! ## localStorage -/

/-- The storage area behind `localStorage`: its key/value pairs in key order,
and the space the host grants it, in code units. -/
structure Storage where
  items : List (JSString × JSString)
  quota : Nat

/-- The value stored under a key, if any. -/
def lookupItem : List (JSString × JSString) → JSString → Option JSString
  | [], _ => none
  | (k, v) :: rest, key => if k = key then some v else lookupItem rest key

/-- The pairs after `key` is given `value`: an existing key keeps its place, a
new one is added at the end. -/
def putItem : List (JSString × JSString) → JSString → JSString → List (JSString × JSString)
  | [], key, value => [(key, value)]
  | (k, v) :: rest, key, value =>
    if k = key then (k, value) :: rest else (k, v) :: putItem rest key value

/-- Space taken by the pairs: the lengths of all keys and values. -/
def usedSpace : List (JSString × JSString) → Nat
  | [] => 0
  | (k, v) :: rest => k.length + v.length + usedSpace rest

/-- `localStorage.getItem(key)`: the value stored under the key; `none` is the
result `null` for a key that is not there. -/
def localStorage.getItem (storage : Storage) (key : JSString) : Option JSString :=
  lookupItem storage.items key

/-- `localStorage.setItem(key, value)`.  The value is first converted to a
string: `none` is the argument `undefined`, whose string is `undefined`.  When
the new pairs do not fit the quota the value is not set and a
QuotaExceededError is thrown. -/
def localStorage.setItem (storage : Storage) (key : JSString) (value : Option JSString) :
    Except JSError Storage :=
  let items := putItem storage.items key (value.getD undefinedText)
  if usedSpace items ≤ storage.quota then .ok { storage with items := items }
  else .error .QuotaExceededError

/-! ## The script -/

/-- What the script acts on: the storage area, the messages sent so far on the
port `gameLoaded` (oldest first), and the calls made so far to
`localStorage.setItem` (key and value written, oldest first). -/
structure World where
  localStorage : Storage
  gameLoaded : List JSValue
  setItemCalls : List (JSString × JSString)

/-- The result of running a handler: the world it leaves, and the exception
it let escape, if any. -/
structure Outcome where
  world : World
  thrown : Option JSError

/-- The string `savedGame`, the one storage key the script uses. -/
def savedGameKey : JSString := [115, 97, 118, 101, 100, 71, 97, 109, 101]

/-- Modelled from the spec: `app.ports.gameLoaded.send` is the inbound port of
the compiled application (`Main.elm`), which is not among the sources.  The
value is delivered to the application: it becomes the newest message of the
port. -/
def app.ports.gameLoaded.send (json : JSValue) (w : World) : World :=
  { w with gameLoaded := w.gameLoaded ++ [json] }

/-- `readLocalStorage` (index.js, lines 7-11): reads `savedGame`, parses it and
sends the value on `gameLoaded`.  An exception of `JSON.parse` escapes before
anything is sent. -/
def readLocalStorage (w : World) : Outcome :=
  let savedGame := localStorage.getItem w.localStorage savedGameKey
  match JSON.parse savedGame with
  | .error e => { world := w, thrown := some e }
  | .ok json => { world := app.ports.gameLoaded.send json w, thrown := none }

/-- The subscriber of the port `saveGame` (index.js, lines 13-15):
`localStorage.setItem('savedGame', JSON.stringify(data))`.  The argument is
evaluated first; an exception of `JSON.stringify` escapes before `setItem` is
called, an exception of `setItem` escapes after the call. -/
def saveGame (data : JSValue) (w : World) : Outcome :=
  match JSON.stringify data with
  | .error e => { world := w, thrown := some e }
  | .ok text =>
    let called : World :=
      { w with setItemCalls := w.setItemCalls ++ [(savedGameKey, text.getD undefinedText)] }
    match localStorage.setItem w.localStorage savedGameKey text with
    | .error e => { world := called, thrown := some e }
    | .ok storage => { world := { called with localStorage := storage }, thrown := none }

/-- The subscriber of the port `loadGame` (index.js, lines 17-19): calls
`readLocalStorage`. -/
def loadGame (w : World) : Outcome :=
  readLocalStorage w

/-- A signal of the application on one of its two outbound ports. -/
inductive Signal where
  | saveGame (data : JSValue)
  | loadGame

/-- Runs the subscriber of the port the signal arrives on. -/
def handle : Signal → World → Outcome
  | .saveGame data, w => saveGame data w
  | .loadGame, w => loadGame w

/-- Modelled from the spec: the signals are handled one at a time, in arrival
order (section 5); an exception ends the handler that threw, and the next
signal finds the world as that handler left it. -/
def run : List Signal → World → World
  | [], w => w
  | s :: rest, w => run rest (handle s w).world

/-! ## Notions used to state the properties -/

mutual
/-- A JSON value: null, a boolean, a finite number, a string, an array of JSON
values, or an object whose keys are distinct and whose values are JSON
values. -/
def isJSON : JSValue → Bool
  | .null => true
  | .bool _ => true
  | .num x => x.isNormal
  | .str _ => true
  | .arr elements => allJSON elements
  | .obj properties => membersJSON properties
  | .undefined => false
  | .nan => false
  | .infinity _ => false
  | .bigint _ => false
/-- All elements are JSON values. -/
def allJSON : List JSValue → Bool
  | [] => true
  | v :: vs => isJSON v && allJSON vs
/-- All property values are JSON values and no key occurs twice. -/
def membersJSON : List (JSString × JSValue) → Bool
  | [] => true
  | (k, v) :: ps => isJSON v && decide (k ∉ ps.map Prod.fst) && membersJSON ps
end

/-- The messages a handler added to the port `gameLoaded`: what the port
holds after the run beyond what it held before. -/
def sentBy (before : World) (o : Outcome) : List JSValue :=
  o.world.gameLoaded.drop before.gameLoaded.length

/-- The keys present in a storage area. -/
def Storage.keys (storage : Storage) : List JSString :=
  storage.items.map Prod.fst


/-- The number of `loadGame` signals of the sequence whose handler returns
without an exception. -/
def successfulLoads : List Signal → World → Nat
  | [], _ => 0
  | .saveGame data :: rest, w => successfulLoads rest (saveGame data w).world
  | .loadGame :: rest, w =>
    (if (loadGame w).thrown = none then 1 else 0) + successfulLoads rest (loadGame w).world

/-- The values read by the loads of the sequence that find parsable content,
in the order of the loads: for each, what `JSON.parse` makes of the entry
`savedGame` at that moment. -/
def loadedValues : List Signal → World → List JSValue
  | [], _ => []
  | .saveGame data :: rest, w => loadedValues rest (saveGame data w).world
  | .loadGame :: rest, w =>
    (match JSON.parse (localStorage.getItem w.localStorage savedGameKey) with
      | .ok v => [v]
      | .error _ => []) ++ loadedValues rest (loadGame w).world

/-- The input does not go on with a decimal digit. -/
def NoDigitAhead (rest : List Nat) : Prop :=
  ∀ u r, rest = u :: r → isDigit u = false

/-- The input ends, or goes on with a comma, a closing bracket or a closing
brace: what follows a value inside a JSON text written by `JSON.stringify`. -/
def Delimited (rest : List Nat) : Prop :=
  rest = [] ∨ ∃ c r, rest = c :: r ∧ (c = 44 ∨ c = 93 ∨ c = 125)


/-- The parser returns the expected value and remaining input, unless its
recursion bound was too small. -/
def ReadsBack {α : Type} (result : Except ParseFail (α × List Nat)) (a : α)
    (rest : List Nat) : Prop :=
  result = .ok (a, rest) ∨ result = .error .outOfFuel

/-- The text is read back as the value `v`: it starts with a code unit that is
neither white space nor a closing bracket or brace, and `parseValue` returns
`v` and what follows the text. -/
def ValueText (v : JSValue) (text : List Nat) : Prop :=
  (∃ u b, text = u :: b ∧ isWhiteSpace u = false ∧ u ≠ 93 ∧ u ≠ 125) ∧
    ∀ fuel rest, Delimited rest → ReadsBack (parseValue fuel (text ++ rest)) v rest

/-- The element texts are read back as the elements `vs`. -/
def ElementsText (vs : List JSValue) (parts : List JSString) : Prop :=
  (vs = [] → parts = []) ∧
    (vs ≠ [] →
      (∃ u b, joinComma parts = u :: b ∧ isWhiteSpace u = false ∧ u ≠ 93) ∧
        ∀ fuel rest, ReadsBack (parseElements fuel (joinComma parts ++ 93 :: rest)) vs rest)

/-- The member texts are read back as the members `ps`. -/
def MembersText (ps : List (JSString × JSValue)) (parts : List JSString) : Prop :=
  (ps = [] → parts = []) ∧
    (ps ≠ [] →
      (∃ b, joinComma parts = 34 :: b) ∧
        ∀ fuel rest, ReadsBack (parseMembers fuel (joinComma parts ++ 125 :: rest)) ps rest)

/-- All values that the sequence asks to save are JSON values. -/
def savesJSON : List Signal → Bool
  | [] => true
  | .saveGame data :: rest => isJSON data && savesJSON rest
  | .loadGame :: rest => savesJSON rest

/-- The value of the most recent `saveGame` signal of the sequence whose
handler returned without an exception; `last` when there is none. -/
def lastSaved : List Signal → World → Option JSValue → Option JSValue
  | [], _, last => last
  | .saveGame data :: rest, w, last =>
    lastSaved rest (saveGame data w).world
      (if (saveGame data w).thrown = none then some data else last)
  | .loadGame :: rest, w, last => lastSaved rest (loadGame w).world last

/-- The value of the most recent `saveGame` signal of the sequence, whether
its handler failed or not; `last` when there is none. -/
def lastRequested : List Signal → Option JSValue → Option JSValue
  | [], last => last
  | .saveGame data :: rest, _ => lastRequested rest (some data)
  | .loadGame :: rest, last => lastRequested rest last

/-- What the storage holds when `last` is the value saved last: no entry
`savedGame` when nothing was saved, the JSON text of the value otherwise. -/
def HoldsSaved (w : World) (last : Option JSValue) : Prop :=
  match last with
  | none => localStorage.getItem w.localStorage savedGameKey = none
  | some v =>
    isJSON v = true ∧
      ∃ text, JSON.stringify v = .ok (some text) ∧
        localStorage.getItem w.localStorage savedGameKey = some text

/-- A world with an empty storage area of the given quota, in which nothing
was sent and no call was made. -/
def World.fresh (quota : Nat) : World :=
  { localStorage := { items := [], quota := quota }, gameLoaded := [], setItemCalls := [] }

/-- The saved game of the first scenario of the spec, level 3 and score 100. -/
def scenarioGame : JSValue :=
  .obj [(utf16 "level", .num (JSNumber.ofInt 3)), (utf16 "score", .num (JSNumber.ofInt 100))]

/-- Valid JSON text: text that `JSON.parse` accepts, one value of the JSON
grammar between optional white space. -/
def ValidJSONText (text : JSString) : Prop :=
  ∃ v, JSON.parse (some text) = .ok v

/-! ## The storage area -/

theorem lookupItem_putItem_self (items : List (JSString × JSString)) (key value : JSString) :
    lookupItem (putItem items key value) key = some value := by
  induction items with
  | nil => simp [putItem, lookupItem]
  | cons p rest ih =>
    obtain ⟨k, v⟩ := p
    by_cases h : k = key
    · simp [putItem, lookupItem, h]
    · simp [putItem, lookupItem, h, ih]

theorem lookupItem_putItem_of_ne (items : List (JSString × JSString)) (key value k : JSString)
    (hk : k ≠ key) : lookupItem (putItem items key value) k = lookupItem items k := by
  induction items with
  | nil => simp [putItem, lookupItem, Ne.symm hk]
  | cons p rest ih =>
    obtain ⟨k', v'⟩ := p
    by_cases h : k' = key
    · subst h
      simp [putItem, lookupItem, Ne.symm hk]
    · by_cases h' : k' = k
      · subst h'
        simp [putItem, lookupItem, h]
      · simp [putItem, lookupItem, h, h', ih]

theorem mem_keys_putItem (items : List (JSString × JSString)) (key value k : JSString) :
    k ∈ (putItem items key value).map Prod.fst ↔ k ∈ items.map Prod.fst ∨ k = key := by
  induction items with
  | nil => simp [putItem]
  | cons p rest ih =>
    obtain ⟨k', v'⟩ := p
    by_cases h : k' = key
    · subst h
      simp only [putItem, if_true, List.map_cons, List.mem_cons]
      tauto
    · simp only [putItem, h, if_false, List.map_cons, List.mem_cons, ih]
      tauto

theorem setItem_ok_iff (storage : Storage) (key : JSString) (value : Option JSString)
    (storage' : Storage) :
    localStorage.setItem storage key value = .ok storage' ↔
      usedSpace (putItem storage.items key (value.getD undefinedText)) ≤ storage.quota ∧
      storage' = { storage with items := putItem storage.items key (value.getD undefinedText) } := by
  unfold localStorage.setItem
  by_cases h : usedSpace (putItem storage.items key (value.getD undefinedText)) ≤ storage.quota
  · simp only [h, if_true, true_and]
    constructor
    · intro e; injection e with e; exact e.symm
    · intro e; rw [e]
  · simp [h]

theorem setItem_error_iff (storage : Storage) (key : JSString) (value : Option JSString)
    (e : JSError) :
    localStorage.setItem storage key value = .error e ↔
      ¬ usedSpace (putItem storage.items key (value.getD undefinedText)) ≤ storage.quota ∧
      e = .QuotaExceededError := by
  unfold localStorage.setItem
  by_cases h : usedSpace (putItem storage.items key (value.getD undefinedText)) ≤ storage.quota
  · simp [h]
  · simp only [h, if_false, not_false_eq_true, true_and]
    constructor
    · intro e'; injection e' with e'; exact e'.symm
    · intro e'; rw [e']

/-! ## The handlers, case by case -/

theorem saveGame_of_stringify_error {data : JSValue} {e : JSError} (w : World)
    (h : JSON.stringify data = .error e) :
    saveGame data w = { world := w, thrown := some e } := by
  simp [saveGame, h]

theorem saveGame_of_setItem_error {data : JSValue} {text : Option JSString} {e : JSError}
    (w : World) (h : JSON.stringify data = .ok text)
    (hs : localStorage.setItem w.localStorage savedGameKey text = .error e) :
    saveGame data w =
      { world := { w with
          setItemCalls := w.setItemCalls ++ [(savedGameKey, text.getD undefinedText)] },
        thrown := some e } := by
  simp [saveGame, h, hs]

theorem saveGame_of_setItem_ok {data : JSValue} {text : Option JSString} {storage : Storage}
    (w : World) (h : JSON.stringify data = .ok text)
    (hs : localStorage.setItem w.localStorage savedGameKey text = .ok storage) :
    saveGame data w =
      { world :=
          { localStorage := storage, gameLoaded := w.gameLoaded,
            setItemCalls := w.setItemCalls ++ [(savedGameKey, text.getD undefinedText)] },
        thrown := none } := by
  simp [saveGame, h, hs]

theorem loadGame_of_parse_ok {w : World} {json : JSValue}
    (h : JSON.parse (localStorage.getItem w.localStorage savedGameKey) = .ok json) :
    loadGame w = { world := app.ports.gameLoaded.send json w, thrown := none } := by
  simp [loadGame, readLocalStorage, h]

theorem loadGame_of_parse_error {w : World} {e : JSError}
    (h : JSON.parse (localStorage.getItem w.localStorage savedGameKey) = .error e) :
    loadGame w = { world := w, thrown := some e } := by
  simp [loadGame, readLocalStorage, h]

theorem parse_error_is_SyntaxError {text : Option JSString} {e : JSError}
    (h : JSON.parse text = .error e) : e = .SyntaxError := by
  unfold JSON.parse at h
  simp only at h
  split at h
  · injection h with h; exact h.symm
  · split at h
    · cases h
    · injection h with h; exact h.symm

theorem parse_null_argument : JSON.parse none = .ok .null := rfl

/-! ## Numbers: digits -/

theorem digitsValue_append_single (ds : List Nat) (d : Nat) :
    digitsValue (ds ++ [d]) = 10 * digitsValue ds + d := by
  simp [digitsValue, List.foldl_append]

theorem natDigitsAux_spec (fuel : Nat) :
    ∀ n acc, n < 10 ^ (fuel + 1) →
      ∃ ds, natDigitsAux (fuel + 1) n acc = ds ++ acc ∧ ds ≠ [] ∧ (∀ d ∈ ds, d < 10) ∧
        digitsValue ds = n := by
  induction fuel with
  | zero =>
    intro n acc hn
    refine ⟨[n], ?_, by simp, ?_, by simp [digitsValue]⟩
    · have h : n < 10 := by simpa using hn
      simp [natDigitsAux, h]
    · intro d hd
      have h : n < 10 := by simpa using hn
      simp at hd
      omega
  | succ fuel ih =>
    intro n acc hn
    by_cases h : n < 10
    · refine ⟨[n], ?_, by simp, ?_, by simp [digitsValue]⟩
      · rw [natDigitsAux]; simp [h]
      · intro d hd
        simp at hd
        omega
    · have hlt : n / 10 < 10 ^ (fuel + 1) := by
        have : n < 10 ^ (fuel + 1) * 10 := by rw [← pow_succ]; exact hn
        exact Nat.div_lt_of_lt_mul (by rw [mul_comm]; exact this)
      obtain ⟨ds, hds, _, hlt10, hval⟩ := ih (n / 10) (n % 10 :: acc) hlt
      refine ⟨ds ++ [n % 10], ?_, by simp, ?_, ?_⟩
      · rw [natDigitsAux]; simp only [h, if_false]; rw [hds]; simp
      · intro d hd
        rcases List.mem_append.mp hd with hd | hd
        · exact hlt10 d hd
        · simp at hd; omega
      · rw [digitsValue_append_single, hval]; omega

theorem natDigits_spec (n : Nat) :
    natDigits n ≠ [] ∧ (∀ d ∈ natDigits n, d < 10) ∧ digitsValue (natDigits n) = n := by
  have hn : n < 10 ^ (n + 1) := by
    calc n < 2 ^ n := Nat.lt_two_pow n
      _ ≤ 10 ^ n := Nat.pow_le_pow_left (by norm_num) n
      _ ≤ 10 ^ (n + 1) := Nat.pow_le_pow_right (by norm_num) (Nat.le_succ n)
  obtain ⟨ds, hds, hne, hlt, hval⟩ := natDigitsAux_spec n n [] hn
  have : natDigits n = ds := by simp [natDigits, hds]
  rw [this]
  exact ⟨hne, hlt, hval⟩

theorem Delimited.noDigitAhead {rest : List Nat} (h : Delimited rest) : NoDigitAhead rest := by
  intro u r hr
  rcases h with h | ⟨c, r', h, hc⟩
  · rw [h] at hr; cases hr
  · rw [h] at hr
    injection hr with hu _
    subst hu
    rcases hc with hc | hc | hc <;> subst hc <;> decide

theorem isDigit_digitChar {d : Nat} (h : d < 10) : isDigit (48 + d) = true := by
  simp [isDigit]; omega

theorem takeDigits_digitChars (ds rest : List Nat) (hds : ∀ d ∈ ds, d < 10)
    (hrest : NoDigitAhead rest) : takeDigits (digitChars ds ++ rest) = (ds, rest) := by
  induction ds with
  | nil =>
    cases rest with
    | nil => simp [digitChars, takeDigits]
    | cons u r => simp [digitChars, takeDigits, hrest u r rfl]
  | cons d ds ih =>
    have hd : d < 10 := hds d (List.mem_cons_self _ _)
    have ih' := ih (fun x hx => hds x (List.mem_cons_of_mem _ hx))
    simp only [digitChars, List.map_cons, List.cons_append] at ih' ⊢
    simp only [takeDigits, isDigit_digitChar hd, if_true]
    rw [ih']
    simp

theorem stripTrailingZeros_zeros (b : Nat) : stripTrailingZeros (List.replicate b 0) = [] := by
  induction b with
  | zero => rfl
  | succ b ih => simp [List.replicate_succ, stripTrailingZeros, ih]

theorem stripTrailingZeros_append_zeros (ds : List Nat) (b : Nat) (hne : ds ≠ [])
    (hlast : ds.getLast? ≠ some 0) :
    stripTrailingZeros (ds ++ List.replicate b 0) = ds := by
  induction ds with
  | nil => exact absurd rfl hne
  | cons d ds ih =>
    cases ds with
    | nil =>
      have hd : d ≠ 0 := by simpa using hlast
      simp [stripTrailingZeros, stripTrailingZeros_zeros, hd]
    | cons e es =>
      have ih' := ih (by simp) (by simpa [List.getLast?_cons_cons] using hlast)
      simp only [List.cons_append] at ih' ⊢
      rw [stripTrailingZeros, ih']

theorem stripLeadingZeros_zeros_append (a : Nat) (d : Nat) (ds : List Nat) (n : Int)
    (hd : d ≠ 0) :
    stripLeadingZeros (List.replicate a 0 ++ d :: ds) n = (d :: ds, n - a) := by
  induction a generalizing n with
  | zero => simp [stripLeadingZeros, hd]
  | succ a ih =>
    have h : List.replicate (a + 1) 0 ++ d :: ds = 0 :: (List.replicate a 0 ++ d :: ds) := by
      simp [List.replicate_succ]
    rw [h, stripLeadingZeros]
    simp only [if_true]
    rw [ih]
    simp only [Prod.mk.injEq, true_and]
    push_cast
    omega

theorem normalize_padded (neg : Bool) (a b : Nat) (d : Nat) (ds : List Nat) (n : Int)
    (hd : d ≠ 0) (hlast : (d :: ds).getLast? ≠ some 0) :
    JSNumber.normalize neg (List.replicate a 0 ++ (d :: ds) ++ List.replicate b 0) n =
      ⟨neg, d :: ds, n - a⟩ := by
  unfold JSNumber.normalize
  have h1 : List.replicate a 0 ++ (d :: ds) ++ List.replicate b 0 =
      List.replicate a 0 ++ d :: (ds ++ List.replicate b 0) := by simp
  rw [h1, stripLeadingZeros_zeros_append a d _ n hd]
  have h2 : d :: (ds ++ List.replicate b 0) = (d :: ds) ++ List.replicate b 0 := by simp
  simp only [h2, stripTrailingZeros_append_zeros (d :: ds) b (by simp) hlast]

/-! ## Numbers: `parseNumber` reads back what `Number::toString` writes -/

theorem parseFraction_delimited {rest : List Nat} (h : Delimited rest) :
    parseFraction rest = some ([], rest) := by
  rcases h with h | ⟨c, r, h, hc⟩
  · subst h; rfl
  · subst h
    rcases hc with hc | hc | hc <;> subst hc <;> rfl

theorem parseExponent_delimited {rest : List Nat} (h : Delimited rest) :
    parseExponent rest = some (0, rest) := by
  rcases h with h | ⟨c, r, h, hc⟩
  · subst h; rfl
  · subst h
    rcases hc with hc | hc | hc <;> subst hc <;> rfl

theorem parseFraction_digits (d : Nat) (ds rest : List Nat) (hds : ∀ x ∈ d :: ds, x < 10)
    (hrest : NoDigitAhead rest) :
    parseFraction (46 :: (digitChars (d :: ds) ++ rest)) = some (d :: ds, rest) := by
  simp [parseFraction, takeDigits_digitChars (d :: ds) rest hds hrest]

theorem parseFraction_exponent_ahead (r : List Nat) :
    parseFraction (101 :: r) = some ([], 101 :: r) := rfl

theorem parseExponent_plus (m : Nat) (rest : List Nat) (hrest : NoDigitAhead rest) :
    parseExponent (101 :: 43 :: (digitChars (natDigits m) ++ rest)) = some ((m : Int), rest) := by
  obtain ⟨hne, hlt, hval⟩ := natDigits_spec m
  have h := takeDigits_digitChars (natDigits m) rest hlt hrest
  cases hd : natDigits m with
  | nil => exact absurd hd hne
  | cons d ds =>
    rw [hd] at h hval
    simp [parseExponent, h, hval]

theorem parseExponent_minus (m : Nat) (rest : List Nat) (hrest : NoDigitAhead rest) :
    parseExponent (101 :: 45 :: (digitChars (natDigits m) ++ rest)) = some (-(m : Int), rest) := by
  obtain ⟨hne, hlt, hval⟩ := natDigits_spec m
  have h := takeDigits_digitChars (natDigits m) rest hlt hrest
  cases hd : natDigits m with
  | nil => exact absurd hd hne
  | cons d ds =>
    rw [hd] at h hval
    simp [parseExponent, h, hval]

theorem parseInteger_zero (r : List Nat) : parseInteger (48 :: r) = some ([0], r) := rfl

theorem parseInteger_digits (d : Nat) (ds rest : List Nat) (hd : d ≠ 0)
    (hds : ∀ x ∈ d :: ds, x < 10) (hrest : NoDigitAhead rest) :
    parseInteger (digitChars (d :: ds) ++ rest) = some (d :: ds, rest) := by
  have hd10 : d < 10 := hds d (List.mem_cons_self _ _)
  have h := takeDigits_digitChars (d :: ds) rest hds hrest
  simp only [digitChars, List.map_cons, List.cons_append] at h ⊢
  have h48 : ¬ (48 + d = 48) := by omega
  simp only [parseInteger, h48, if_false, isDigit_digitChar hd10, if_true, h]

theorem parseUnsigned_of_parts {neg : Bool} {input ints r1 fracs r2 r3 : List Nat} {e : Int}
    (h1 : parseInteger input = some (ints, r1)) (h2 : parseFraction r1 = some (fracs, r2))
    (h3 : parseExponent r2 = some (e, r3)) :
    parseUnsigned neg input =
      some (JSNumber.normalize neg (ints ++ fracs) ((ints.length : Nat) + e), r3) := by
  simp [parseUnsigned, h1, h2, h3]

theorem normalize_of_padded (neg : Bool) (a b d : Nat) (ds l : List Nat) (n m : Int)
    (hd : d ≠ 0) (hlast : (d :: ds).getLast? ≠ some 0)
    (hl : l = List.replicate a 0 ++ (d :: ds) ++ List.replicate b 0) (hm : m = n - a) :
    JSNumber.normalize neg l n = ⟨neg, d :: ds, m⟩ := by
  rw [hl, hm]
  exact normalize_padded neg a b d ds n hd hlast

theorem digitChars_append (xs ys : List Nat) :
    digitChars (xs ++ ys) = digitChars xs ++ digitChars ys := by
  simp [digitChars]

theorem digitChars_zeros (b : Nat) : digitChars (List.replicate b 0) = List.replicate b 48 := by
  simp [digitChars]

theorem NoDigitAhead.cons {u : Nat} (r : List Nat) (h : isDigit u = false) :
    NoDigitAhead (u :: r) := by
  intro u' r' e
  injection e with e _
  rw [← e]; exact h

theorem parseExponent_written (n : Int) (rest : List Nat) (hrest : NoDigitAhead rest) :
    parseExponent
        (101 :: (if 0 ≤ n - 1 then 43 else 45) :: (digitChars (natDigits (n - 1).natAbs) ++ rest)) =
      some (n - 1, rest) := by
  by_cases h : 0 ≤ n - 1
  · simp only [h, if_true]
    rw [parseExponent_plus _ _ hrest]
    congr 2
    omega
  · simp only [h, if_false]
    rw [parseExponent_minus _ _ hrest]
    congr 2
    omega

theorem parseUnsigned_plain (neg : Bool) (d : Nat) (ds : List Nat) (n : Int) (rest : List Nat)
    (hds : ∀ x ∈ d :: ds, x < 10) (hd : d ≠ 0) (hlast : (d :: ds).getLast? ≠ some 0)
    (hrest : Delimited rest) (h1 : ((d :: ds).length : Nat) ≤ n) :
    parseUnsigned neg
      (digitChars (d :: ds) ++ List.replicate (n - ((d :: ds).length : Nat)).toNat 48 ++ rest) =
      some (⟨neg, d :: ds, n⟩, rest) := by
  have hnd := hrest.noDigitAhead
  have e1 : digitChars (d :: ds) ++ List.replicate (n - ((d :: ds).length : Nat)).toNat 48 ++ rest
      = digitChars (d :: (ds ++ List.replicate (n - ((d :: ds).length : Nat)).toNat 0)) ++ rest := by
    rw [← digitChars_zeros, ← digitChars_append]; simp
  rw [e1, parseUnsigned_of_parts
    (parseInteger_digits d _ rest hd (by
      intro x hx
      rcases List.mem_cons.mp hx with hx | hx
      · subst hx; exact hds _ (List.mem_cons_self _ _)
      · rcases List.mem_append.mp hx with hx | hx
        · exact hds x (List.mem_cons_of_mem _ hx)
        · rw [List.eq_of_mem_replicate hx]; norm_num) hnd)
    (parseFraction_delimited hrest) (parseExponent_delimited hrest)]
  congr 1
  congr 1
  apply normalize_of_padded neg 0 (n - ((d :: ds).length : Nat)).toNat d ds _ _ _ hd hlast
  · simp
  · simp only [List.length_cons, List.length_append, List.length_replicate] at h1 ⊢
    push_cast at h1 ⊢
    omega

theorem parseUnsigned_point_inside (neg : Bool) (d : Nat) (ds : List Nat) (n : Int)
    (rest : List Nat) (hds : ∀ x ∈ d :: ds, x < 10) (hd : d ≠ 0)
    (hlast : (d :: ds).getLast? ≠ some 0) (hrest : Delimited rest)
    (h0 : 0 < n) (h1 : n < ((d :: ds).length : Nat)) :
    parseUnsigned neg
      (digitChars ((d :: ds).take n.toNat) ++ 46 :: digitChars ((d :: ds).drop n.toNat) ++ rest) =
      some (⟨neg, d :: ds, n⟩, rest) := by
  have hnd := hrest.noDigitAhead
  obtain ⟨m, hm⟩ : ∃ m : Nat, n.toNat = m + 1 := ⟨n.toNat - 1, by omega⟩
  have hlen : m < ds.length := by
    simp only [List.length_cons] at h1
    push_cast at h1
    omega
  rw [hm]
  obtain ⟨e, es, hdrop⟩ : ∃ e es, (d :: ds).drop (m + 1) = e :: es := by
    cases h : (d :: ds).drop (m + 1) with
    | nil =>
      have := congrArg List.length h
      simp at this
      omega
    | cons e es => exact ⟨e, es, rfl⟩
  have htake : (d :: ds).take (m + 1) = d :: ds.take m := rfl
  have hsplit : d :: ds = (d :: ds.take m) ++ e :: es := by
    rw [← htake, ← hdrop, List.take_append_drop]
  have hA : ∀ x ∈ d :: ds.take m, x < 10 := by
    intro x hx
    apply hds x
    rw [hsplit]
    exact List.mem_append_left _ hx
  have hB : ∀ x ∈ e :: es, x < 10 := by
    intro x hx
    apply hds x
    rw [hsplit]
    exact List.mem_append_right _ hx
  rw [hdrop, htake]
  have e1 : digitChars (d :: ds.take m) ++ 46 :: digitChars (e :: es) ++ rest =
      digitChars (d :: ds.take m) ++ (46 :: (digitChars (e :: es) ++ rest)) := by simp
  rw [e1, parseUnsigned_of_parts
    (parseInteger_digits d _ _ hd hA (NoDigitAhead.cons _ (by decide)))
    (parseFraction_digits e es rest hB hnd) (parseExponent_delimited hrest)]
  congr 1
  congr 1
  apply normalize_of_padded neg 0 0 d ds _ _ _ hd hlast
  · rw [← hsplit]; simp
  · simp only [List.length_cons, List.length_take]
    push_cast
    omega

theorem parseUnsigned_zero_point (neg : Bool) (d : Nat) (ds : List Nat) (n : Int)
    (rest : List Nat) (hds : ∀ x ∈ d :: ds, x < 10) (hd : d ≠ 0)
    (hlast : (d :: ds).getLast? ≠ some 0) (hrest : Delimited rest) (h0 : n ≤ 0) :
    parseUnsigned neg
      (48 :: 46 :: (List.replicate (-n).toNat 48 ++ digitChars (d :: ds)) ++ rest) =
      some (⟨neg, d :: ds, n⟩, rest) := by
  have hnd := hrest.noDigitAhead
  have hall : ∀ x ∈ List.replicate (-n).toNat 0 ++ d :: ds, x < 10 := by
    intro x hx
    rcases List.mem_append.mp hx with hx | hx
    · rw [List.eq_of_mem_replicate hx]; norm_num
    · exact hds x hx
  obtain ⟨e, es, hes⟩ : ∃ e es, List.replicate (-n).toNat 0 ++ d :: ds = e :: es := by
    cases h : List.replicate (-n).toNat 0 ++ d :: ds with
    | nil => simp at h
    | cons e es => exact ⟨e, es, rfl⟩
  have e1 : 48 :: 46 :: (List.replicate (-n).toNat 48 ++ digitChars (d :: ds)) ++ rest =
      48 :: (46 :: (digitChars (e :: es) ++ rest)) := by
    rw [← hes, digitChars_append, digitChars_zeros]; simp
  rw [hes] at hall
  rw [e1, parseUnsigned_of_parts (parseInteger_zero _)
    (parseFraction_digits e es rest hall hnd) (parseExponent_delimited hrest)]
  congr 1
  congr 1
  apply normalize_of_padded neg ((-n).toNat + 1) 0 d ds _ _ _ hd hlast
  · rw [← hes]; simp [List.replicate_succ]
  · simp only [List.length_cons, List.length_nil]
    push_cast
    omega

theorem parseUnsigned_exponential (neg : Bool) (d : Nat) (ds : List Nat) (n : Int)
    (rest : List Nat) (hds : ∀ x ∈ d :: ds, x < 10) (hd : d ≠ 0)
    (hlast : (d :: ds).getLast? ≠ some 0) (hrest : Delimited rest) :
    parseUnsigned neg
      ((48 + d) :: ((if ds = [] then [] else 46 :: digitChars ds) ++
          101 :: (if 0 ≤ n - 1 then 43 else 45) :: digitChars (natDigits (n - 1).natAbs)) ++ rest) =
      some (⟨neg, d :: ds, n⟩, rest) := by
  have hnd := hrest.noDigitAhead
  have hd1 : ∀ x ∈ [d], x < 10 := by
    intro x hx
    exact hds x (by simp at hx; simp [hx])
  cases ds with
  | nil =>
    have e1 : (48 + d) :: ((if ([] : List Nat) = [] then [] else 46 :: digitChars []) ++
          101 :: (if 0 ≤ n - 1 then 43 else 45) :: digitChars (natDigits (n - 1).natAbs)) ++ rest =
        digitChars [d] ++ (101 :: (if 0 ≤ n - 1 then 43 else 45) ::
          (digitChars (natDigits (n - 1).natAbs) ++ rest)) := by
      simp [digitChars]
    rw [e1, parseUnsigned_of_parts
      (parseInteger_digits d [] _ hd hd1 (NoDigitAhead.cons _ (by decide)))
      (parseFraction_exponent_ahead _) (parseExponent_written n rest hnd)]
    congr 1
    congr 1
    apply normalize_of_padded neg 0 0 d [] _ _ _ hd hlast
    · simp
    · simp
  | cons e es =>
    have hB : ∀ x ∈ e :: es, x < 10 := fun x hx => hds x (List.mem_cons_of_mem _ hx)
    have e1 : (48 + d) :: ((if e :: es = [] then [] else 46 :: digitChars (e :: es)) ++
          101 :: (if 0 ≤ n - 1 then 43 else 45) :: digitChars (natDigits (n - 1).natAbs)) ++ rest =
        digitChars [d] ++ (46 :: (digitChars (e :: es) ++
          (101 :: (if 0 ≤ n - 1 then 43 else 45) ::
            (digitChars (natDigits (n - 1).natAbs) ++ rest)))) := by
      simp [digitChars]
    rw [e1, parseUnsigned_of_parts
      (parseInteger_digits d [] _ hd hd1 (NoDigitAhead.cons _ (by decide)))
      (parseFraction_digits e es _ hB (NoDigitAhead.cons _ (by decide)))
      (parseExponent_written n rest hnd)]
    congr 1
    congr 1
    apply normalize_of_padded neg 0 0 d (e :: es) _ _ _ hd hlast
    · simp
    · simp

/-- The text `Number::toString` writes for a Number in normal form, without
the sign. -/
theorem parseUnsigned_written (neg : Bool) (d : Nat) (ds : List Nat) (n : Int) (rest : List Nat)
    (hds : ∀ x ∈ d :: ds, x < 10) (hd : d ≠ 0) (hlast : (d :: ds).getLast? ≠ some 0)
    (hrest : Delimited rest) :
    parseUnsigned neg
      ((if ((d :: ds).length : Nat) ≤ n ∧ n ≤ 21 then
          digitChars (d :: ds) ++ List.replicate (n - ((d :: ds).length : Nat)).toNat 48
        else if 0 < n ∧ n ≤ 21 then
          digitChars ((d :: ds).take n.toNat) ++ 46 :: digitChars ((d :: ds).drop n.toNat)
        else if -6 < n ∧ n ≤ 0 then
          48 :: 46 :: (List.replicate (-n).toNat 48 ++ digitChars (d :: ds))
        else
          (48 + d) :: ((if ds = [] then [] else 46 :: digitChars ds) ++
            101 :: (if 0 ≤ n - 1 then 43 else 45) :: digitChars (natDigits (n - 1).natAbs)))
        ++ rest) = some (⟨neg, d :: ds, n⟩, rest) := by
  by_cases h1 : ((d :: ds).length : Nat) ≤ n ∧ n ≤ 21
  · rw [if_pos h1]
    exact parseUnsigned_plain neg d ds n rest hds hd hlast hrest h1.1
  · rw [if_neg h1]
    by_cases h2 : 0 < n ∧ n ≤ 21
    · rw [if_pos h2]
      exact parseUnsigned_point_inside neg d ds n rest hds hd hlast hrest h2.1 (by omega)
    · rw [if_neg h2]
      by_cases h3 : -6 < n ∧ n ≤ 0
      · rw [if_pos h3]
        exact parseUnsigned_zero_point neg d ds n rest hds hd hlast hrest h3.2
      · rw [if_neg h3]
        exact parseUnsigned_exponential neg d ds n rest hds hd hlast hrest

theorem isNormal_cons {neg : Bool} {d : Nat} {ds : List Nat} {n : Int}
    (h : JSNumber.isNormal ⟨neg, d :: ds, n⟩ = true) :
    (∀ x ∈ d :: ds, x < 10) ∧ d ≠ 0 ∧ (d :: ds).getLast? ≠ some 0 := by
  simp only [JSNumber.isNormal, Bool.and_eq_true, List.all_eq_true, decide_eq_true_eq] at h
  exact ⟨h.1.1, h.1.2, h.2⟩

theorem isNormal_nil {neg : Bool} {n : Int} (h : JSNumber.isNormal ⟨neg, [], n⟩ = true) :
    neg = false ∧ n = 0 := by
  simpa [JSNumber.isNormal] using h

/-- The unsigned text of a nonzero Number starts with a decimal digit. -/
theorem written_starts_with_digit (d : Nat) (ds : List Nat) (n : Int) (hd : d < 10) :
    ∃ u b,
      (if ((d :: ds).length : Nat) ≤ n ∧ n ≤ 21 then
          digitChars (d :: ds) ++ List.replicate (n - ((d :: ds).length : Nat)).toNat 48
        else if 0 < n ∧ n ≤ 21 then
          digitChars ((d :: ds).take n.toNat) ++ 46 :: digitChars ((d :: ds).drop n.toNat)
        else if -6 < n ∧ n ≤ 0 then
          48 :: 46 :: (List.replicate (-n).toNat 48 ++ digitChars (d :: ds))
        else
          (48 + d) :: ((if ds = [] then [] else 46 :: digitChars ds) ++
            101 :: (if 0 ≤ n - 1 then 43 else 45) :: digitChars (natDigits (n - 1).natAbs)))
        = u :: b ∧ isDigit u = true := by
  by_cases h1 : ((d :: ds).length : Nat) ≤ n ∧ n ≤ 21
  · rw [if_pos h1]
    exact ⟨48 + d, _, by simp [digitChars]; rfl, isDigit_digitChar hd⟩
  · rw [if_neg h1]
    by_cases h2 : 0 < n ∧ n ≤ 21
    · rw [if_pos h2]
      obtain ⟨m, hm⟩ : ∃ m : Nat, n.toNat = m + 1 := ⟨n.toNat - 1, by omega⟩
      rw [hm]
      exact ⟨48 + d, _, by simp [digitChars]; rfl, isDigit_digitChar hd⟩
    · rw [if_neg h2]
      by_cases h3 : -6 < n ∧ n ≤ 0
      · rw [if_pos h3]
        exact ⟨48, _, rfl, by decide⟩
      · rw [if_neg h3]
        exact ⟨48 + d, _, rfl, isDigit_digitChar hd⟩

/-- The text of a Number starts with a minus sign or a decimal digit. -/
theorem toString_head (x : JSNumber) (hx : x.isNormal = true) :
    ∃ u b, x.toString = u :: b ∧ (u = 45 ∨ isDigit u = true) := by
  obtain ⟨neg, digits, n⟩ := x
  cases digits with
  | nil => exact ⟨48, [], rfl, Or.inr (by decide)⟩
  | cons d ds =>
    obtain ⟨hds, _, _⟩ := isNormal_cons hx
    obtain ⟨u, b, hb, hu⟩ := written_starts_with_digit d ds n (hds d (List.mem_cons_self _ _))
    cases neg with
    | true =>
      refine ⟨45, u :: b, ?_, Or.inl rfl⟩
      simp only [JSNumber.toString, if_true, List.singleton_append]
      rw [hb]
    | false =>
      refine ⟨u, b, ?_, Or.inr hu⟩
      simp only [JSNumber.toString, Bool.false_eq_true, if_false, List.nil_append]
      rw [hb]

/-- `parseNumber` reads back the Number that `Number::toString` wrote. -/
theorem parseNumber_toString (x : JSNumber) (rest : List Nat) (hx : x.isNormal = true)
    (hrest : Delimited rest) : parseNumber (x.toString ++ rest) = some (x, rest) := by
  obtain ⟨neg, digits, n⟩ := x
  cases digits with
  | nil =>
    obtain ⟨hneg, hn⟩ := isNormal_nil hx
    subst hneg hn
    have h : parseUnsigned false (48 :: rest) = some (⟨false, [], 0⟩, rest) := by
      rw [parseUnsigned_of_parts (parseInteger_zero _) (parseFraction_delimited hrest)
        (parseExponent_delimited hrest)]
      rfl
    simpa [JSNumber.toString, parseNumber] using h
  | cons d ds =>
    obtain ⟨hds, hd, hlast⟩ := isNormal_cons hx
    have hw := parseUnsigned_written neg d ds n rest hds hd hlast hrest
    obtain ⟨u, b, hb, hu⟩ := written_starts_with_digit d ds n (hds d (List.mem_cons_self _ _))
    cases neg with
    | true =>
      simp only [JSNumber.toString, if_true, List.singleton_append, List.cons_append, parseNumber]
      exact hw
    | false =>
      simp only [JSNumber.toString, Bool.false_eq_true, if_false, List.nil_append]
      rw [hb] at hw ⊢
      have h45 : ¬ (u = 45) := by
        intro h; subst h; simp [isDigit] at hu
      simp only [List.cons_append, parseNumber, h45, if_false] at hw ⊢
      exact hw

/-! ## Strings: `parseStringBody` reads back what `QuoteJSONString` writes -/

theorem hexVal_hexDigit : ∀ x, x < 16 → hexVal (hexDigit x) = some x := by
  decide

theorem parseStringBody_unicodeEscape (u : Nat) (tail : List Nat) (hu : u < 65536) :
    parseStringBody (unicodeEscape u ++ tail) = consUnit u (parseStringBody tail) := by
  have h3 := hexVal_hexDigit (u / 4096 % 16) (Nat.mod_lt _ (by norm_num))
  have h2 := hexVal_hexDigit (u / 256 % 16) (Nat.mod_lt _ (by norm_num))
  have h1 := hexVal_hexDigit (u / 16 % 16) (Nat.mod_lt _ (by norm_num))
  have h0 := hexVal_hexDigit (u % 16) (Nat.mod_lt _ (by norm_num))
  have hv : ((u / 4096 % 16 * 16 + u / 256 % 16) * 16 + u / 16 % 16) * 16 + u % 16 = u := by
    omega
  simp only [unicodeEscape, List.cons_append, List.nil_append]
  rw [parseStringBody.eq_def]
  simp only [show ¬ ((92 : Nat) = 34) by decide, if_false, if_true, h3, h2, h1, h0, hv]

theorem parseStringBody_raw (u : Nat) (tail : List Nat) (h34 : u ≠ 34) (h92 : u ≠ 92)
    (h32 : ¬ u < 32) : parseStringBody (u :: tail) = consUnit u (parseStringBody tail) := by
  rw [parseStringBody.eq_def]
  simp only [h34, h92, h32, if_false]

theorem parseStringBody_quoteUnit (u : Nat) (tail : List Nat) :
    parseStringBody (quoteUnit u ++ tail) = consUnit u (parseStringBody tail) := by
  unfold quoteUnit
  split_ifs with h8 h9 h10 h12 h13 h34 h92 hesc
  · subst h8; rw [parseStringBody.eq_def]; simp [unescape]
  · subst h9; rw [parseStringBody.eq_def]; simp [unescape]
  · subst h10; rw [parseStringBody.eq_def]; simp [unescape]
  · subst h12; rw [parseStringBody.eq_def]; simp [unescape]
  · subst h13; rw [parseStringBody.eq_def]; simp [unescape]
  · subst h34; rw [parseStringBody.eq_def]; simp [unescape]
  · subst h92; rw [parseStringBody.eq_def]; simp [unescape]
  · apply parseStringBody_unicodeEscape
    rcases hesc with h | h | h
    · omega
    · simp [isLeadingSurrogate] at h; omega
    · simp [isTrailingSurrogate] at h; omega
  · have h32 : ¬ u < 32 := fun h => hesc (Or.inl h)
    simpa using parseStringBody_raw u tail h34 h92 h32

theorem parseStringBody_quoteUnits (s : JSString) (rest : List Nat) :
    parseStringBody (quoteUnits s ++ 34 :: rest) = some (s, rest) := by
  induction s using quoteUnits.induct with
  | case1 => rw [parseStringBody.eq_def]; simp [quoteUnits]
  | case2 u =>
    rw [quoteUnits, parseStringBody_quoteUnit, parseStringBody.eq_def]
    simp [consUnit]
  | case3 u v tail hpair ih =>
    rw [quoteUnits, if_pos hpair]
    have hu : 0xD800 ≤ u := by
      have := hpair.1; simp [isLeadingSurrogate] at this; exact this.1
    have hv : 0xDC00 ≤ v := by
      have := hpair.2; simp [isTrailingSurrogate] at this; exact this.1
    simp only [List.cons_append]
    rw [parseStringBody_raw u _ (by omega) (by omega) (by omega),
      parseStringBody_raw v _ (by omega) (by omega) (by omega), ih]
    simp [consUnit]
  | case4 u v tail hpair ih =>
    rw [quoteUnits, if_neg hpair, List.append_assoc, parseStringBody_quoteUnit, ih]
    simp [consUnit]

/-- After the opening quote, `parseStringBody` reads back the string that
`QuoteJSONString` wrote. -/
theorem parseStringBody_quoteJSONString (s : JSString) (rest : List Nat) :
    ∃ body, quoteJSONString s ++ rest = 34 :: body ∧ parseStringBody body = some (s, rest) := by
  refine ⟨quoteUnits s ++ 34 :: rest, ?_, parseStringBody_quoteUnits s rest⟩
  simp [quoteJSONString]

/-! ## Values: `parseValue` reads back what `JSON.stringify` writes -/

theorem skipWS_cons_of_not_ws {u : Nat} (r : List Nat) (h : isWhiteSpace u = false) :
    skipWS (u :: r) = u :: r := by
  simp [skipWS, h]

theorem Delimited.comma (r : List Nat) : Delimited (44 :: r) :=
  Or.inr ⟨44, r, rfl, Or.inl rfl⟩

theorem Delimited.bracket (r : List Nat) : Delimited (93 :: r) :=
  Or.inr ⟨93, r, rfl, Or.inr (Or.inl rfl)⟩

theorem Delimited.brace (r : List Nat) : Delimited (125 :: r) :=
  Or.inr ⟨125, r, rfl, Or.inr (Or.inr rfl)⟩

theorem ReadsBack.zero_value (input : List Nat) (v : JSValue) (rest : List Nat) :
    ReadsBack (parseValue 0 input) v rest := by
  right; rw [parseValue]

theorem valueText_null : ValueText .null nullText := by
  refine ⟨⟨110, [117, 108, 108], rfl, by decide, by decide, by decide⟩, ?_⟩
  intro fuel rest _
  cases fuel with
  | zero => exact ReadsBack.zero_value _ _ _
  | succ fuel =>
    left
    simp [nullText, parseValue, expect]

theorem valueText_true : ValueText (.bool true) trueText := by
  refine ⟨⟨116, [114, 117, 101], rfl, by decide, by decide, by decide⟩, ?_⟩
  intro fuel rest _
  cases fuel with
  | zero => exact ReadsBack.zero_value _ _ _
  | succ fuel =>
    left
    simp [trueText, parseValue, expect]

theorem valueText_false : ValueText (.bool false) falseText := by
  refine ⟨⟨102, [97, 108, 115, 101], rfl, by decide, by decide, by decide⟩, ?_⟩
  intro fuel rest _
  cases fuel with
  | zero => exact ReadsBack.zero_value _ _ _
  | succ fuel =>
    left
    simp [falseText, parseValue, expect]

theorem valueText_str (s : JSString) : ValueText (.str s) (quoteJSONString s) := by
  refine ⟨⟨34, quoteUnits s ++ [34], rfl, by decide, by decide, by decide⟩, ?_⟩
  intro fuel rest _
  cases fuel with
  | zero => exact ReadsBack.zero_value _ _ _
  | succ fuel =>
    left
    have h := parseStringBody_quoteUnits s rest
    have e : quoteJSONString s ++ rest = 34 :: (quoteUnits s ++ 34 :: rest) := by
      simp [quoteJSONString]
    rw [e]
    simp [parseValue, h]

theorem valueText_num (x : JSNumber) (hx : x.isNormal = true) : ValueText (.num x) x.toString := by
  obtain ⟨u, b, hub, hu⟩ := toString_head x hx
  have hu' : isWhiteSpace u = false ∧ u ≠ 93 ∧ u ≠ 125 ∧ u ≠ 110 ∧ u ≠ 116 ∧ u ≠ 102 ∧
      u ≠ 34 ∧ u ≠ 91 ∧ u ≠ 123 := by
    rcases hu with hu | hu
    · subst hu; decide
    · simp only [isDigit, Bool.and_eq_true, decide_eq_true_eq] at hu
      simp only [isWhiteSpace, Bool.or_eq_false_iff, decide_eq_false_iff_not]
      omega
  refine ⟨⟨u, b, hub, hu'.1, hu'.2.1, hu'.2.2.1⟩, ?_⟩
  intro fuel rest hrest
  cases fuel with
  | zero => exact ReadsBack.zero_value _ _ _
  | succ fuel =>
    left
    have h := parseNumber_toString x rest hx hrest
    rw [hub] at h ⊢
    obtain ⟨-, -, -, h1, h2, h3, h4, h5, h6⟩ := hu'
    simp only [List.cons_append] at h ⊢
    rw [parseValue]
    simp only [h1, h2, h3, h4, h5, h6, if_false, h]

theorem valueText_arr {vs : List JSValue} {parts : List JSString} (h : ElementsText vs parts) :
    ValueText (.arr vs) (91 :: (joinComma parts ++ [93])) := by
  refine ⟨⟨91, _, rfl, by decide, by decide, by decide⟩, ?_⟩
  intro fuel rest _
  cases fuel with
  | zero => exact ReadsBack.zero_value _ _ _
  | succ fuel =>
    have e : 91 :: (joinComma parts ++ [93]) ++ rest = 91 :: (joinComma parts ++ 93 :: rest) := by
      simp
    rw [e]
    cases vs with
    | nil =>
      left
      rw [h.1 rfl]
      simp [parseValue, joinComma, skipWS, isWhiteSpace]
    | cons v vs' =>
      obtain ⟨⟨u, b, hub, hws, h93⟩, hread⟩ := h.2 (by simp)
      have hr := hread fuel rest
      rw [hub] at hr ⊢
      simp only [List.cons_append] at hr ⊢
      rw [parseValue]
      simp only [show ¬ ((91 : Nat) = 110) by decide, show ¬ ((91 : Nat) = 116) by decide,
        show ¬ ((91 : Nat) = 102) by decide, show ¬ ((91 : Nat) = 34) by decide, if_false,
        if_true, skipWS_cons_of_not_ws _ hws, h93]
      rcases hr with hr | hr
      · left; rw [hr]
      · right; rw [hr]

theorem setProperty_of_new (ps : List (JSString × JSValue)) (k : JSString) (v : JSValue)
    (hk : k ∉ ps.map Prod.fst) : setProperty ps k v = ps ++ [(k, v)] := by
  induction ps with
  | nil => rfl
  | cons p ps ih =>
    obtain ⟨k', v'⟩ := p
    have hne : ¬ (k' = k) := by
      intro h; apply hk; simp [h]
    have hk' : k ∉ ps.map Prod.fst := by
      intro h; apply hk; simp only [List.map_cons, List.mem_cons]; exact Or.inr h
    simp [setProperty, hne, ih hk']

theorem foldl_setProperty_of_distinct (ms acc : List (JSString × JSValue))
    (hnodup : (ms.map Prod.fst).Nodup) (hdisj : ∀ k ∈ ms.map Prod.fst, k ∉ acc.map Prod.fst) :
    ms.foldl (fun ps m => setProperty ps m.1 m.2) acc = acc ++ ms := by
  induction ms generalizing acc with
  | nil => simp
  | cons m ms ih =>
    obtain ⟨k, v⟩ := m
    simp only [List.map_cons, List.nodup_cons] at hnodup
    have hk : k ∉ acc.map Prod.fst := hdisj k (by simp)
    simp only [List.foldl_cons]
    rw [setProperty_of_new acc k v hk, ih _ hnodup.2]
    · simp
    · intro k' hk' hmem
      simp only [List.map_append, List.map_cons, List.map_nil, List.mem_append,
        List.mem_singleton] at hmem
      rcases hmem with hmem | hmem
      · exact hdisj k' (by simp only [List.map_cons, List.mem_cons]; exact Or.inr hk') hmem
      · subst hmem; exact hnodup.1 hk'

theorem membersJSON_keys_nodup (ps : List (JSString × JSValue)) (h : membersJSON ps = true) :
    (ps.map Prod.fst).Nodup := by
  induction ps with
  | nil => simp
  | cons p ps ih =>
    obtain ⟨k, v⟩ := p
    simp only [membersJSON, Bool.and_eq_true, decide_eq_true_eq] at h
    simp only [List.map_cons, List.nodup_cons]
    exact ⟨h.1.2, ih h.2⟩

theorem buildObject_of_members (ps : List (JSString × JSValue)) (h : membersJSON ps = true) :
    buildObject ps = ps := by
  unfold buildObject
  rw [foldl_setProperty_of_distinct ps [] (membersJSON_keys_nodup ps h) (by simp)]
  simp

theorem valueText_obj {ps : List (JSString × JSValue)} {parts : List JSString}
    (h : MembersText ps parts) (hps : membersJSON ps = true) :
    ValueText (.obj ps) (123 :: (joinComma parts ++ [125])) := by
  refine ⟨⟨123, _, rfl, by decide, by decide, by decide⟩, ?_⟩
  intro fuel rest _
  cases fuel with
  | zero => exact ReadsBack.zero_value _ _ _
  | succ fuel =>
    have e : 123 :: (joinComma parts ++ [125]) ++ rest =
        123 :: (joinComma parts ++ 125 :: rest) := by simp
    rw [e]
    cases ps with
    | nil =>
      left
      rw [h.1 rfl]
      simp [parseValue, joinComma, skipWS, isWhiteSpace]
    | cons p ps' =>
      obtain ⟨⟨b, hb⟩, hread⟩ := h.2 (by simp)
      have hr := hread fuel rest
      rw [hb] at hr ⊢
      simp only [List.cons_append] at hr ⊢
      rw [parseValue]
      simp only [show ¬ ((123 : Nat) = 110) by decide, show ¬ ((123 : Nat) = 116) by decide,
        show ¬ ((123 : Nat) = 102) by decide, show ¬ ((123 : Nat) = 34) by decide,
        show ¬ ((123 : Nat) = 91) by decide, if_false, if_true,
        skipWS_cons_of_not_ws _ (show isWhiteSpace 34 = false by decide),
        show ¬ ((34 : Nat) = 125) by decide]
      rcases hr with hr | hr
      · left; rw [hr]; simp only [buildObject_of_members _ hps]
      · right; rw [hr]

theorem elementsText_nil : ElementsText [] [] :=
  ⟨fun _ => rfl, fun h => absurd rfl h⟩

theorem joinComma_cons_cons (p q : JSString) (qs : List JSString) :
    joinComma (p :: q :: qs) = p ++ 44 :: joinComma (q :: qs) := rfl

theorem elementsText_cons {v : JSValue} {p : JSString} {vs : List JSValue}
    {parts : List JSString} (hv : ValueText v p) (hvs : ElementsText vs parts) :
    ElementsText (v :: vs) (p :: parts) := by
  obtain ⟨⟨u, b, hub, hws, h93, _⟩, hread⟩ := hv
  refine ⟨fun h => (by cases h), fun _ => ?_⟩
  cases vs with
  | nil =>
    rw [hvs.1 rfl]
    refine ⟨⟨u, b, by simp [joinComma, hub], hws, h93⟩, ?_⟩
    intro fuel rest
    cases fuel with
    | zero => right; rw [parseElements]
    | succ fuel =>
      have hr := hread fuel (93 :: rest) (Delimited.bracket rest)
      simp only [joinComma]
      rw [parseElements]
      rcases hr with hr | hr
      · left; rw [hr]; simp [skipWS, isWhiteSpace]
      · right; rw [hr]
  | cons v' vs' =>
    obtain ⟨⟨u', b', hub', hws', h93'⟩, hread'⟩ := hvs.2 (by simp)
    have hparts : ∃ q qs, parts = q :: qs := by
      cases parts with
      | nil => simp [joinComma] at hub'
      | cons q qs => exact ⟨q, qs, rfl⟩
    obtain ⟨q, qs, hq⟩ := hparts
    subst hq
    refine ⟨⟨u, b ++ 44 :: joinComma (q :: qs), by rw [joinComma_cons_cons, hub]; simp, hws,
      h93⟩, ?_⟩
    intro fuel rest
    cases fuel with
    | zero => right; rw [parseElements]
    | succ fuel =>
      have hr := hread fuel (44 :: (joinComma (q :: qs) ++ 93 :: rest)) (Delimited.comma _)
      have hr' := hread' fuel rest
      have e : joinComma (p :: q :: qs) ++ 93 :: rest =
          p ++ 44 :: (joinComma (q :: qs) ++ 93 :: rest) := by
        rw [joinComma_cons_cons]; simp
      rw [e, parseElements]
      rcases hr with hr | hr
      · rw [hr]
        simp only [skipWS_cons_of_not_ws _ (show isWhiteSpace 44 = false by decide),
          show ¬ ((44 : Nat) = 93) by decide, if_false, if_true]
        rw [hub'] at hr' ⊢
        simp only [List.cons_append] at hr' ⊢
        rw [skipWS_cons_of_not_ws _ hws']
        rcases hr' with hr' | hr'
        · left; rw [hr']
        · right; rw [hr']
      · right; rw [hr]

theorem membersText_nil : MembersText [] [] :=
  ⟨fun _ => rfl, fun h => absurd rfl h⟩

theorem membersText_cons {k : JSString} {v : JSValue} {s : JSString}
    {ps : List (JSString × JSValue)} {parts : List JSString} (hv : ValueText v s)
    (hps : MembersText ps parts) :
    MembersText ((k, v) :: ps) ((quoteJSONString k ++ 58 :: s) :: parts) := by
  obtain ⟨⟨u, b, hub, hws, _, _⟩, hread⟩ := hv
  refine ⟨fun h => (by cases h), fun _ => ?_⟩
  have hkey : ∀ tail : List Nat,
      quoteJSONString k ++ 58 :: s ++ tail = 34 :: (quoteUnits k ++ 34 :: (58 :: (s ++ tail))) := by
    intro tail; simp [quoteJSONString]
  cases ps with
  | nil =>
    rw [hps.1 rfl]
    refine ⟨⟨_, by simp [joinComma, quoteJSONString]; rfl⟩, ?_⟩
    intro fuel rest
    cases fuel with
    | zero => right; rw [parseMembers]
    | succ fuel =>
      have hr := hread fuel (125 :: rest) (Delimited.brace rest)
      simp only [joinComma]
      rw [hkey, parseMembers]
      simp only [if_true, parseStringBody_quoteUnits,
        skipWS_cons_of_not_ws _ (show isWhiteSpace 58 = false by decide)]
      rw [hub] at hr ⊢
      simp only [List.cons_append] at hr ⊢
      rw [skipWS_cons_of_not_ws _ hws]
      rcases hr with hr | hr
      · left; rw [hr]; simp [skipWS, isWhiteSpace]
      · right; rw [hr]
  | cons p' ps' =>
    obtain ⟨⟨b', hb'⟩, hread'⟩ := hps.2 (by simp)
    have hparts : ∃ q qs, parts = q :: qs := by
      cases parts with
      | nil => simp [joinComma] at hb'
      | cons q qs => exact ⟨q, qs, rfl⟩
    obtain ⟨q, qs, hq⟩ := hparts
    subst hq
    refine ⟨⟨_, by rw [joinComma_cons_cons]; simp [quoteJSONString]; rfl⟩, ?_⟩
    intro fuel rest
    cases fuel with
    | zero => right; rw [parseMembers]
    | succ fuel =>
      have hr := hread fuel (44 :: (joinComma (q :: qs) ++ 125 :: rest)) (Delimited.comma _)
      have hr' := hread' fuel rest
      have e : joinComma ((quoteJSONString k ++ 58 :: s) :: q :: qs) ++ 125 :: rest =
          quoteJSONString k ++ 58 :: s ++ 44 :: (joinComma (q :: qs) ++ 125 :: rest) := by
        rw [joinComma_cons_cons]; simp
      rw [e, hkey, parseMembers]
      simp only [if_true, parseStringBody_quoteUnits,
        skipWS_cons_of_not_ws _ (show isWhiteSpace 58 = false by decide)]
      rw [hub] at hr ⊢
      simp only [List.cons_append] at hr ⊢
      rw [skipWS_cons_of_not_ws _ hws]
      rcases hr with hr | hr
      · rw [hr]
        simp only [skipWS_cons_of_not_ws _ (show isWhiteSpace 44 = false by decide),
          show ¬ ((44 : Nat) = 125) by decide, if_false, if_true]
        rw [hb'] at hr' ⊢
        simp only [List.cons_append] at hr' ⊢
        rw [skipWS_cons_of_not_ws _ (show isWhiteSpace 34 = false by decide)]
        rcases hr' with hr' | hr'
        · left; rw [hr']
        · right; rw [hr']
      · right; rw [hr]

mutual
/-- A JSON value is serialized to a text that `parseValue` reads back. -/
theorem serialize_value : (v : JSValue) → isJSON v = true →
    ∃ text, serializeJSONProperty v = .ok (some text) ∧ ValueText v text
  | .null, _ => ⟨nullText, rfl, valueText_null⟩
  | .bool true, _ => ⟨trueText, rfl, valueText_true⟩
  | .bool false, _ => ⟨falseText, rfl, valueText_false⟩
  | .num x, h => ⟨x.toString, rfl, valueText_num x (by simpa [isJSON] using h)⟩
  | .str s, _ => ⟨quoteJSONString s, rfl, valueText_str s⟩
  | .arr vs, h => by
    obtain ⟨parts, hparts, htext⟩ := serialize_elements vs (by simpa [isJSON] using h)
    exact ⟨_, by simp [serializeJSONProperty, hparts], valueText_arr htext⟩
  | .obj ps, h => by
    have hps : membersJSON ps = true := by simpa [isJSON] using h
    obtain ⟨parts, hparts, htext⟩ := serialize_members ps hps
    exact ⟨_, by simp [serializeJSONProperty, hparts], valueText_obj htext hps⟩
  | .undefined, h => by simp [isJSON] at h
  | .nan, h => by simp [isJSON] at h
  | .infinity _, h => by simp [isJSON] at h
  | .bigint _, h => by simp [isJSON] at h
/-- The elements of an array of JSON values are serialized to texts that
`parseElements` reads back. -/
theorem serialize_elements : (vs : List JSValue) → allJSON vs = true →
    ∃ parts, serializeJSONArray vs = .ok parts ∧ ElementsText vs parts
  | [], _ => ⟨[], rfl, elementsText_nil⟩
  | v :: vs, h => by
    have h' : isJSON v = true ∧ allJSON vs = true := by simpa [allJSON] using h
    obtain ⟨text, htext, hv⟩ := serialize_value v h'.1
    obtain ⟨parts, hparts, hvs⟩ := serialize_elements vs h'.2
    exact ⟨text :: parts, by simp [serializeJSONArray, htext, hparts], elementsText_cons hv hvs⟩
/-- The members of an object of JSON values are serialized to texts that
`parseMembers` reads back. -/
theorem serialize_members : (ps : List (JSString × JSValue)) → membersJSON ps = true →
    ∃ parts, serializeJSONObject ps = .ok parts ∧ MembersText ps parts
  | [], _ => ⟨[], rfl, membersText_nil⟩
  | (k, v) :: ps, h => by
    have h' : (isJSON v = true ∧ k ∉ ps.map Prod.fst) ∧ membersJSON ps = true := by
      simpa [membersJSON] using h
    obtain ⟨text, htext, hv⟩ := serialize_value v h'.1.1
    obtain ⟨parts, hparts, hps⟩ := serialize_members ps h'.2
    exact ⟨_, by simp [serializeJSONObject, htext, hparts], membersText_cons hv hps⟩
end

/-! ## The recursion bound of `JSON.parse` is never reached -/

theorem skipWS_length_le (r : List Nat) : (skipWS r).length ≤ r.length := by
  induction r with
  | nil => simp [skipWS]
  | cons u r ih =>
    rw [skipWS]
    split_ifs
    · simp only [List.length_cons]; omega
    · exact le_refl _

theorem expect_length_le (w r r1 : List Nat) (h : expect w r = some r1) :
    r1.length ≤ r.length := by
  induction w generalizing r with
  | nil =>
    simp only [expect, Option.some.injEq] at h
    rw [h]
  | cons c cs ih =>
    cases r with
    | nil => simp [expect] at h
    | cons u r =>
      rw [expect] at h
      split_ifs at h
      have := ih r h
      simp only [List.length_cons]; omega

theorem takeDigits_length_le (r : List Nat) : (takeDigits r).2.length ≤ r.length := by
  induction r with
  | nil => simp [takeDigits]
  | cons u r ih =>
    rw [takeDigits]
    split_ifs
    · simp only [List.length_cons]; omega
    · exact le_refl _

theorem parseInteger_length_lt {input ds r : List Nat} (h : parseInteger input = some (ds, r)) :
    r.length < input.length := by
  cases input with
  | nil => simp [parseInteger] at h
  | cons u t =>
    unfold parseInteger at h
    simp only at h
    split_ifs at h with h48 hdig
    · simp only [Option.some.injEq, Prod.mk.injEq] at h
      rw [← h.2]; simp
    · simp only [Option.some.injEq] at h
      have hr : r = (takeDigits (u :: t)).2 := by rw [h]
      rw [hr, takeDigits]
      simp only [hdig, if_true, List.length_cons]
      have := takeDigits_length_le t
      omega

theorem parseFraction_length_le {input fs r : List Nat} (h : parseFraction input = some (fs, r)) :
    r.length ≤ input.length := by
  cases input with
  | nil =>
    simp only [parseFraction, Option.some.injEq, Prod.mk.injEq] at h
    rw [← h.2]
  | cons u t =>
    unfold parseFraction at h
    simp only at h
    split_ifs at h with h46
    · have hlen := takeDigits_length_le t
      cases htd : takeDigits t with
      | mk ds r1 =>
        rw [htd] at h hlen
        cases ds with
        | nil => simp at h
        | cons d ds =>
          simp only [Option.some.injEq, Prod.mk.injEq] at h
          rw [← h.2]
          simp only [List.length_cons] at hlen ⊢
          omega
    · simp only [Option.some.injEq, Prod.mk.injEq] at h
      rw [← h.2]

theorem parseExponent_length_le {input r : List Nat} {e : Int}
    (h : parseExponent input = some (e, r)) : r.length ≤ input.length := by
  cases input with
  | nil =>
    simp only [parseExponent, Option.some.injEq, Prod.mk.injEq] at h
    rw [← h.2]
  | cons u t =>
    unfold parseExponent at h
    simp only at h
    split_ifs at h with hE
    · cases t with
      | nil => simp at h
      | cons s r1 =>
        simp only at h
        split_ifs at h with h45 h43
        · have hlen := takeDigits_length_le r1
          cases htd : takeDigits r1 with
          | mk ds r2 =>
            rw [htd] at h hlen
            cases ds with
            | nil => simp at h
            | cons d ds =>
              simp only [Option.some.injEq, Prod.mk.injEq] at h
              rw [← h.2]
              simp only [List.length_cons] at hlen ⊢
              omega
        · have hlen := takeDigits_length_le r1
          cases htd : takeDigits r1 with
          | mk ds r2 =>
            rw [htd] at h hlen
            cases ds with
            | nil => simp at h
            | cons d ds =>
              simp only [Option.some.injEq, Prod.mk.injEq] at h
              rw [← h.2]
              simp only [List.length_cons] at hlen ⊢
              omega
        · have hlen := takeDigits_length_le (s :: r1)
          cases htd : takeDigits (s :: r1) with
          | mk ds r2 =>
            rw [htd] at h hlen
            cases ds with
            | nil => simp at h
            | cons d ds =>
              simp only [Option.some.injEq, Prod.mk.injEq] at h
              rw [← h.2]
              simp only [List.length_cons] at hlen ⊢
              omega
    · simp only [Option.some.injEq, Prod.mk.injEq] at h
      rw [← h.2]

theorem parseUnsigned_length_lt {neg : Bool} {input r : List Nat} {x : JSNumber}
    (h : parseUnsigned neg input = some (x, r)) : r.length < input.length := by
  unfold parseUnsigned at h
  cases h1 : parseInteger input with
  | none => simp [h1] at h
  | some p1 =>
    obtain ⟨ints, r1⟩ := p1
    cases h2 : parseFraction r1 with
    | none => simp [h1, h2] at h
    | some p2 =>
      obtain ⟨fracs, r2⟩ := p2
      cases h3 : parseExponent r2 with
      | none => simp [h1, h2, h3] at h
      | some p3 =>
        obtain ⟨e, r3⟩ := p3
        simp only [h1, h2, h3, Option.some.injEq, Prod.mk.injEq] at h
        have l1 := parseInteger_length_lt h1
        have l2 := parseFraction_length_le h2
        have l3 := parseExponent_length_le h3
        rw [← h.2]
        omega

theorem parseNumber_length_lt {input r : List Nat} {x : JSNumber}
    (h : parseNumber input = some (x, r)) : r.length < input.length := by
  cases input with
  | nil => simp [parseNumber] at h
  | cons u t =>
    unfold parseNumber at h
    simp only at h
    split_ifs at h
    · have := parseUnsigned_length_lt h
      simp only [List.length_cons]; omega
    · exact parseUnsigned_length_lt h

theorem consUnit_eq_some {u : Nat} {o : Option (JSString × List Nat)} {s : JSString}
    {r : List Nat} (h : consUnit u o = some (s, r)) : ∃ s', o = some (s', r) := by
  cases o with
  | none => simp [consUnit] at h
  | some p =>
    obtain ⟨s', r'⟩ := p
    simp only [consUnit, Option.some.injEq, Prod.mk.injEq] at h
    exact ⟨s', by rw [h.2]⟩

theorem parseStringBody_length_aux (n : Nat) :
    ∀ input : List Nat, input.length ≤ n →
      ∀ s r, parseStringBody input = some (s, r) → r.length < input.length := by
  induction n with
  | zero =>
    intro input hlen s r h
    cases input with
    | nil => rw [parseStringBody.eq_def] at h; simp at h
    | cons u t => simp at hlen
  | succ n ih =>
    intro input hlen s r h
    cases input with
    | nil => rw [parseStringBody.eq_def] at h; simp at h
    | cons u t =>
      simp only [List.length_cons] at hlen ⊢
      rw [parseStringBody.eq_def] at h
      simp only at h
      by_cases h34 : u = 34
      · simp only [h34, if_true, Option.some.injEq, Prod.mk.injEq] at h
        rw [← h.2]; omega
      · simp only [h34, if_false] at h
        by_cases h92 : u = 92
        · simp only [h92, if_true] at h
          cases t with
          | nil => simp at h
          | cons e r1 =>
            simp only [List.length_cons] at hlen ⊢
            simp only at h
            by_cases h117 : e = 117
            · simp only [h117, if_true] at h
              rcases r1 with _ | ⟨a, _ | ⟨b, _ | ⟨c, _ | ⟨d, r2⟩⟩⟩⟩
              · simp at h
              · simp at h
              · simp at h
              · simp at h
              · simp only [List.length_cons] at hlen ⊢
                simp only at h
                cases ha : hexVal a <;> cases hb : hexVal b <;> cases hc : hexVal c <;>
                  cases hd : hexVal d <;> simp only [ha, hb, hc, hd] at h <;>
                  first
                    | (exact absurd h (by simp))
                    | (obtain ⟨s', hs'⟩ := consUnit_eq_some h
                       have := ih r2 (by omega) s' r hs'
                       omega)
            · simp only [h117, if_false] at h
              cases hu : unescape e with
              | none => simp [hu] at h
              | some ch =>
                simp only [hu] at h
                obtain ⟨s', hs'⟩ := consUnit_eq_some h
                have := ih r1 (by omega) s' r hs'
                omega
        · simp only [h92, if_false] at h
          by_cases h32 : u < 32
          · simp [h32] at h
          · simp only [h32, if_false] at h
            obtain ⟨s', hs'⟩ := consUnit_eq_some h
            have := ih t (by omega) s' r hs'
            omega

theorem parseStringBody_length_lt {input : List Nat} {s : JSString} {r : List Nat}
    (h : parseStringBody input = some (s, r)) : r.length < input.length :=
  parseStringBody_length_aux input.length input (le_refl _) s r h

theorem skipWS_cons_length {r : List Nat} {c : Nat} {r1 : List Nat} (h : skipWS r = c :: r1) :
    r1.length < r.length := by
  have := skipWS_length_le r
  rw [h] at this
  simp only [List.length_cons] at this
  omega

/-- With `fuel`, each of the three parsers leaves less input than it was given
when it succeeds, and reaches its recursion bound only when `fuel` is small
for the input. -/
theorem parse_fuel (fuel : Nat) :
    (∀ input : List Nat,
      (∀ v r, parseValue fuel input = .ok (v, r) → r.length < input.length) ∧
      (2 * input.length + 1 ≤ fuel → parseValue fuel input ≠ .error .outOfFuel)) ∧
    (∀ input : List Nat,
      (∀ vs r, parseElements fuel input = .ok (vs, r) → r.length < input.length) ∧
      (2 * input.length + 2 ≤ fuel → parseElements fuel input ≠ .error .outOfFuel)) ∧
    (∀ input : List Nat,
      (∀ ms r, parseMembers fuel input = .ok (ms, r) → r.length < input.length) ∧
      (2 * input.length + 2 ≤ fuel → parseMembers fuel input ≠ .error .outOfFuel)) := by
  induction fuel with
  | zero =>
    refine ⟨fun input => ⟨?_, ?_⟩, fun input => ⟨?_, ?_⟩, fun input => ⟨?_, ?_⟩⟩
    · intro v r h; rw [parseValue] at h; cases h
    · intro h; omega
    · intro v r h; rw [parseElements] at h; cases h
    · intro h; omega
    · intro v r h; rw [parseMembers] at h; cases h
    · intro h; omega
  | succ fuel ih =>
    obtain ⟨ihV, ihE, ihM⟩ := ih
    refine ⟨fun input => ?_, fun input => ?_, fun input => ?_⟩
    · -- parseValue
      cases input with
      | nil =>
        refine ⟨fun v r h => ?_, fun _ h => ?_⟩
        · rw [parseValue] at h; cases h
        · rw [parseValue] at h; cases h
      | cons u t =>
        rw [parseValue]
        simp only [List.length_cons]
        by_cases h110 : u = 110
        · simp only [h110, if_true]
          cases he : expect [117, 108, 108] t with
          | none => exact ⟨fun v r h => (by cases h), fun _ h => (by cases h)⟩
          | some r1 =>
            have := expect_length_le _ _ _ he
            refine ⟨fun v r h => ?_, fun _ h => by cases h⟩
            simp only [Except.ok.injEq, Prod.mk.injEq] at h
            rw [← h.2]; omega
        · simp only [h110, if_false]
          by_cases h116 : u = 116
          · simp only [h116, if_true]
            cases he : expect [114, 117, 101] t with
            | none => exact ⟨fun v r h => (by cases h), fun _ h => (by cases h)⟩
            | some r1 =>
              have := expect_length_le _ _ _ he
              refine ⟨fun v r h => ?_, fun _ h => by cases h⟩
              simp only [Except.ok.injEq, Prod.mk.injEq] at h
              rw [← h.2]; omega
          · simp only [h116, if_false]
            by_cases h102 : u = 102
            · simp only [h102, if_true]
              cases he : expect [97, 108, 115, 101] t with
              | none => exact ⟨fun v r h => (by cases h), fun _ h => (by cases h)⟩
              | some r1 =>
                have := expect_length_le _ _ _ he
                refine ⟨fun v r h => ?_, fun _ h => by cases h⟩
                simp only [Except.ok.injEq, Prod.mk.injEq] at h
                rw [← h.2]; omega
            · simp only [h102, if_false]
              by_cases h34 : u = 34
              · simp only [h34, if_true]
                cases hs : parseStringBody t with
                | none => exact ⟨fun v r h => (by cases h), fun _ h => (by cases h)⟩
                | some p =>
                  obtain ⟨s, r1⟩ := p
                  have := parseStringBody_length_lt hs
                  refine ⟨fun v r h => ?_, fun _ h => by cases h⟩
                  simp only [Except.ok.injEq, Prod.mk.injEq] at h
                  rw [← h.2]; omega
              · simp only [h34, if_false]
                by_cases h91 : u = 91
                · simp only [h91, if_true]
                  cases hw : skipWS t with
                  | nil => exact ⟨fun v r h => (by cases h), fun _ h => (by cases h)⟩
                  | cons c r1 =>
                    have hlen := skipWS_cons_length hw
                    have hle := skipWS_length_le t
                    rw [hw] at hle
                    simp only
                    by_cases h93 : c = 93
                    · simp only [h93, if_true]
                      refine ⟨fun v r h => ?_, fun _ h => by cases h⟩
                      simp only [Except.ok.injEq, Prod.mk.injEq] at h
                      rw [← h.2]; omega
                    · simp only [h93, if_false]
                      obtain ⟨hE1, hE2⟩ := ihE (c :: r1)
                      cases hp : parseElements fuel (c :: r1) with
                      | error e =>
                        refine ⟨fun v r h => (by cases h), fun hf h => ?_⟩
                        simp only [Except.error.injEq] at h
                        subst h
                        exact hE2 (by omega) hp
                      | ok p =>
                        obtain ⟨vs, r2⟩ := p
                        have := hE1 vs r2 hp
                        refine ⟨fun v r h => ?_, fun _ h => by cases h⟩
                        simp only [Except.ok.injEq, Prod.mk.injEq] at h
                        rw [← h.2]; omega
                · simp only [h91, if_false]
                  by_cases h123 : u = 123
                  · simp only [h123, if_true]
                    cases hw : skipWS t with
                    | nil => exact ⟨fun v r h => (by cases h), fun _ h => (by cases h)⟩
                    | cons c r1 =>
                      have hlen := skipWS_cons_length hw
                      have hle := skipWS_length_le t
                      rw [hw] at hle
                      simp only
                      by_cases h125 : c = 125
                      · simp only [h125, if_true]
                        refine ⟨fun v r h => ?_, fun _ h => by cases h⟩
                        simp only [Except.ok.injEq, Prod.mk.injEq] at h
                        rw [← h.2]; omega
                      · simp only [h125, if_false]
                        obtain ⟨hM1, hM2⟩ := ihM (c :: r1)
                        cases hp : parseMembers fuel (c :: r1) with
                        | error e =>
                          refine ⟨fun v r h => (by cases h), fun hf h => ?_⟩
                          simp only [Except.error.injEq] at h
                          subst h
                          exact hM2 (by omega) hp
                        | ok p =>
                          obtain ⟨ms, r2⟩ := p
                          have := hM1 ms r2 hp
                          refine ⟨fun v r h => ?_, fun _ h => by cases h⟩
                          simp only [Except.ok.injEq, Prod.mk.injEq] at h
                          rw [← h.2]; omega
                  · simp only [h123, if_false]
                    cases hn : parseNumber (u :: t) with
                    | none => exact ⟨fun v r h => (by cases h), fun _ h => (by cases h)⟩
                    | some p =>
                      obtain ⟨x, r1⟩ := p
                      have := parseNumber_length_lt hn
                      simp only [List.length_cons] at this
                      refine ⟨fun v r h => ?_, fun _ h => by cases h⟩
                      simp only [Except.ok.injEq, Prod.mk.injEq] at h
                      rw [← h.2]; omega
    · -- parseElements
      rw [parseElements]
      obtain ⟨hV1, hV2⟩ := ihV input
      cases hp : parseValue fuel input with
      | error e =>
        refine ⟨fun v r h => (by cases h), fun hf h => ?_⟩
        simp only [Except.error.injEq] at h
        subst h
        exact hV2 (by omega) hp
      | ok p =>
        obtain ⟨v, r⟩ := p
        have hr := hV1 v r hp
        simp only
        cases hw : skipWS r with
        | nil => exact ⟨fun v r h => (by cases h), fun _ h => (by cases h)⟩
        | cons c r1 =>
          have hlen := skipWS_cons_length hw
          simp only
          by_cases h93 : c = 93
          · simp only [h93, if_true]
            refine ⟨fun vs r' h => ?_, fun _ h => by cases h⟩
            simp only [Except.ok.injEq, Prod.mk.injEq] at h
            rw [← h.2]; omega
          · simp only [h93, if_false]
            by_cases h44 : c = 44
            · simp only [h44, if_true]
              obtain ⟨hE1, hE2⟩ := ihE (skipWS r1)
              have hle := skipWS_length_le r1
              cases hq : parseElements fuel (skipWS r1) with
              | error e =>
                refine ⟨fun v r h => (by cases h), fun hf h => ?_⟩
                simp only [Except.error.injEq] at h
                subst h
                exact hE2 (by omega) hq
              | ok q =>
                obtain ⟨vs, r2⟩ := q
                have := hE1 vs r2 hq
                refine ⟨fun vs' r' h => ?_, fun _ h => by cases h⟩
                simp only [Except.ok.injEq, Prod.mk.injEq] at h
                rw [← h.2]; omega
            · simp only [h44, if_false]
              exact ⟨fun v r h => (by cases h), fun _ h => (by cases h)⟩
    · -- parseMembers
      cases input with
      | nil =>
        rw [parseMembers]
        exact ⟨fun v r h => (by cases h), fun _ h => (by cases h)⟩
      | cons q t =>
        rw [parseMembers]
        simp only [List.length_cons]
        by_cases h34 : q = 34
        · simp only [h34, if_true]
          cases hs : parseStringBody t with
          | none => exact ⟨fun v r h => (by cases h), fun _ h => (by cases h)⟩
          | some p =>
            obtain ⟨k, r1⟩ := p
            have hk := parseStringBody_length_lt hs
            simp only
            cases hw : skipWS r1 with
            | nil => exact ⟨fun v r h => (by cases h), fun _ h => (by cases h)⟩
            | cons c r2 =>
              have hlen := skipWS_cons_length hw
              simp only
              by_cases h58 : c = 58
              · simp only [h58, if_true]
                obtain ⟨hV1, hV2⟩ := ihV (skipWS r2)
                have hle := skipWS_length_le r2
                cases hp : parseValue fuel (skipWS r2) with
                | error e =>
                  refine ⟨fun v r h => (by cases h), fun hf h => ?_⟩
                  simp only [Except.error.injEq] at h
                  subst h
                  exact hV2 (by omega) hp
                | ok p =>
                  obtain ⟨v, r3⟩ := p
                  have hr3 := hV1 v r3 hp
                  simp only
                  cases hw3 : skipWS r3 with
                  | nil => exact ⟨fun v r h => (by cases h), fun _ h => (by cases h)⟩
                  | cons d r4 =>
                    have hlen3 := skipWS_cons_length hw3
                    simp only
                    by_cases h125 : d = 125
                    · simp only [h125, if_true]
                      refine ⟨fun ms r' h => ?_, fun _ h => by cases h⟩
                      simp only [Except.ok.injEq, Prod.mk.injEq] at h
                      rw [← h.2]; omega
                    · simp only [h125, if_false]
                      by_cases h44 : d = 44
                      · simp only [h44, if_true]
                        obtain ⟨hM1, hM2⟩ := ihM (skipWS r4)
                        have hle4 := skipWS_length_le r4
                        cases hq : parseMembers fuel (skipWS r4) with
                        | error e =>
                          refine ⟨fun v r h => (by cases h), fun hf h => ?_⟩
                          simp only [Except.error.injEq] at h
                          subst h
                          exact hM2 (by omega) hq
                        | ok q =>
                          obtain ⟨ms, r5⟩ := q
                          have := hM1 ms r5 hq
                          refine ⟨fun ms' r' h => ?_, fun _ h => by cases h⟩
                          simp only [Except.ok.injEq, Prod.mk.injEq] at h
                          rw [← h.2]; omega
                      · simp only [h44, if_false]
                        exact ⟨fun v r h => (by cases h), fun _ h => (by cases h)⟩
              · simp only [h58, if_false]
                exact ⟨fun v r h => (by cases h), fun _ h => (by cases h)⟩
        · simp only [h34, if_false]
          exact ⟨fun v r h => (by cases h), fun _ h => (by cases h)⟩

/-- The bound that `JSON.parse` gives `parseValue` is never reached. -/
theorem parseValue_never_outOfFuel (text input : List Nat) (h : input.length ≤ text.length) :
    parseValue (2 * text.length + 1) input ≠ .error .outOfFuel :=
  ((parse_fuel (2 * text.length + 1)).1 input).2 (by omega)

/-- `JSON.parse` never fails for lack of recursion depth: a SyntaxError it
throws is one of the text. -/
theorem parse_reaches_no_bound (text : JSString) :
    parseValue (2 * text.length + 1) (skipWS text) ≠ .error .outOfFuel :=
  parseValue_never_outOfFuel text (skipWS text) (skipWS_length_le text)

/-! ## What `JSON.parse` returns is a JSON value -/

theorem takeDigits_lt_ten (r : List Nat) : ∀ d ∈ (takeDigits r).1, d < 10 := by
  induction r with
  | nil => simp [takeDigits]
  | cons u r ih =>
    rw [takeDigits]
    split_ifs with h
    · intro d hd
      rcases List.mem_cons.mp hd with hd | hd
      · simp only [isDigit, Bool.and_eq_true, decide_eq_true_eq] at h
        omega
      · exact ih d hd
    · simp

theorem stripLeadingZeros_spec (ds : List Nat) (n : Int) (hds : ∀ d ∈ ds, d < 10) :
    (∀ d ∈ (stripLeadingZeros ds n).1, d < 10) ∧
      ∀ d tl, (stripLeadingZeros ds n).1 = d :: tl → d ≠ 0 := by
  induction ds generalizing n with
  | nil => simp [stripLeadingZeros]
  | cons d ds ih =>
    rw [stripLeadingZeros]
    split_ifs with h
    · exact ih (n - 1) (fun x hx => hds x (List.mem_cons_of_mem _ hx))
    · refine ⟨hds, ?_⟩
      intro d' tl e
      injection e with e _
      rw [← e]; exact h

theorem stripTrailingZeros_spec (ds : List Nat) (hds : ∀ d ∈ ds, d < 10) :
    (∀ d ∈ stripTrailingZeros ds, d < 10) ∧
      (stripTrailingZeros ds).getLast? ≠ some 0 ∧
      ∀ d tl, ds = d :: tl → d ≠ 0 → ∃ tl', stripTrailingZeros ds = d :: tl' := by
  induction ds with
  | nil => simp [stripTrailingZeros]
  | cons d ds ih =>
    obtain ⟨ih1, ih2, _⟩ := ih (fun x hx => hds x (List.mem_cons_of_mem _ hx))
    have hd : d < 10 := hds d (List.mem_cons_self _ _)
    rw [stripTrailingZeros]
    cases hs : stripTrailingZeros ds with
    | nil =>
      by_cases h0 : d = 0
      · simp [h0]
      · simp only [h0, if_false]
        refine ⟨?_, by simpa using h0, fun d' tl e _ => ⟨[], ?_⟩⟩
        · intro x hx
          simp at hx
          omega
        · injection e with e _
          rw [e]
    | cons e es =>
      rw [hs] at ih1 ih2
      simp only
      refine ⟨?_, ?_, fun d' tl e' _ => ⟨e :: es, ?_⟩⟩
      · intro x hx
        rcases List.mem_cons.mp hx with hx | hx
        · omega
        · exact ih1 x hx
      · simpa [List.getLast?_cons_cons] using ih2
      · injection e' with e' _
        rw [e']

/-- A Number built by `normalize` from decimal digits is in normal form. -/
theorem normalize_isNormal (neg : Bool) (ds : List Nat) (n : Int) (hds : ∀ d ∈ ds, d < 10) :
    (JSNumber.normalize neg ds n).isNormal = true := by
  unfold JSNumber.normalize
  obtain ⟨h1, h2⟩ := stripLeadingZeros_spec ds n hds
  cases hl : stripLeadingZeros ds n with
  | mk ds1 n1 =>
    rw [hl] at h1 h2
    simp only at h1 h2 ⊢
    obtain ⟨t1, t2, t3⟩ := stripTrailingZeros_spec ds1 h1
    cases ht : stripTrailingZeros ds1 with
    | nil => rfl
    | cons d tl =>
      rw [ht] at t1 t2
      simp only
      have hd : d ≠ 0 := by
        cases ds1 with
        | nil => simp [stripTrailingZeros] at ht
        | cons d1 tl1 =>
          have hd1 := h2 d1 tl1 rfl
          obtain ⟨tl', htl'⟩ := t3 d1 tl1 rfl hd1
          rw [ht] at htl'
          injection htl' with e _
          rw [e]; exact hd1
      simp only [JSNumber.isNormal, Bool.and_eq_true, List.all_eq_true, decide_eq_true_eq]
      exact ⟨⟨t1, hd⟩, t2⟩

theorem parseInteger_lt_ten {input ds r : List Nat} (h : parseInteger input = some (ds, r)) :
    ∀ d ∈ ds, d < 10 := by
  cases input with
  | nil => simp [parseInteger] at h
  | cons u t =>
    unfold parseInteger at h
    simp only at h
    split_ifs at h with h48 hdig
    · simp only [Option.some.injEq, Prod.mk.injEq] at h
      rw [← h.1]; simp
    · simp only [Option.some.injEq] at h
      have hds : ds = (takeDigits (u :: t)).1 := by rw [h]
      rw [hds]
      exact takeDigits_lt_ten _

theorem parseFraction_lt_ten {input fs r : List Nat} (h : parseFraction input = some (fs, r)) :
    ∀ d ∈ fs, d < 10 := by
  cases input with
  | nil =>
    simp only [parseFraction, Option.some.injEq, Prod.mk.injEq] at h
    rw [← h.1]; simp
  | cons u t =>
    unfold parseFraction at h
    simp only at h
    split_ifs at h with h46
    · have hlt := takeDigits_lt_ten t
      cases htd : takeDigits t with
      | mk ds r1 =>
        rw [htd] at h hlt
        cases ds with
        | nil => simp at h
        | cons d ds =>
          simp only [Option.some.injEq, Prod.mk.injEq] at h
          rw [← h.1]
          exact hlt
    · simp only [Option.some.injEq, Prod.mk.injEq] at h
      rw [← h.1]; simp

theorem parseUnsigned_isNormal {neg : Bool} {input r : List Nat} {x : JSNumber}
    (h : parseUnsigned neg input = some (x, r)) : x.isNormal = true := by
  unfold parseUnsigned at h
  cases h1 : parseInteger input with
  | none => simp [h1] at h
  | some p1 =>
    obtain ⟨ints, r1⟩ := p1
    cases h2 : parseFraction r1 with
    | none => simp [h1, h2] at h
    | some p2 =>
      obtain ⟨fracs, r2⟩ := p2
      cases h3 : parseExponent r2 with
      | none => simp [h1, h2, h3] at h
      | some p3 =>
        obtain ⟨e, r3⟩ := p3
        simp only [h1, h2, h3, Option.some.injEq, Prod.mk.injEq] at h
        rw [← h.1]
        apply normalize_isNormal
        intro d hd
        rcases List.mem_append.mp hd with hd | hd
        · exact parseInteger_lt_ten h1 d hd
        · exact parseFraction_lt_ten h2 d hd

theorem parseNumber_isNormal {input r : List Nat} {x : JSNumber}
    (h : parseNumber input = some (x, r)) : x.isNormal = true := by
  cases input with
  | nil => simp [parseNumber] at h
  | cons u t =>
    unfold parseNumber at h
    simp only at h
    split_ifs at h
    · exact parseUnsigned_isNormal h
    · exact parseUnsigned_isNormal h

theorem membersJSON_iff (ps : List (JSString × JSValue)) :
    membersJSON ps = true ↔ (∀ p ∈ ps, isJSON p.2 = true) ∧ (ps.map Prod.fst).Nodup := by
  induction ps with
  | nil => simp [membersJSON]
  | cons p ps ih =>
    obtain ⟨k, v⟩ := p
    simp only [membersJSON, Bool.and_eq_true, decide_eq_true_eq, ih, List.mem_cons,
      forall_eq_or_imp, List.map_cons, List.nodup_cons]
    tauto

theorem allJSON_iff (vs : List JSValue) : allJSON vs = true ↔ ∀ v ∈ vs, isJSON v = true := by
  induction vs with
  | nil => simp [allJSON]
  | cons v vs ih => simp [allJSON, ih]

theorem setProperty_keys (ps : List (JSString × JSValue)) (k : JSString) (v : JSValue) :
    (setProperty ps k v).map Prod.fst =
      if k ∈ ps.map Prod.fst then ps.map Prod.fst else ps.map Prod.fst ++ [k] := by
  induction ps with
  | nil => simp [setProperty]
  | cons p ps ih =>
    obtain ⟨k', v'⟩ := p
    by_cases h : k' = k
    · subst h; simp [setProperty]
    · have h' : ¬ (k = k') := fun e => h e.symm
      simp only [setProperty, h, if_false, List.map_cons, ih, List.mem_cons, h', false_or]
      split_ifs <;> simp

theorem setProperty_values (ps : List (JSString × JSValue)) (k : JSString) (v : JSValue)
    (hps : ∀ p ∈ ps, isJSON p.2 = true) (hv : isJSON v = true) :
    ∀ p ∈ setProperty ps k v, isJSON p.2 = true := by
  induction ps with
  | nil =>
    intro p hp
    simp only [setProperty, List.mem_singleton] at hp
    rw [hp]; exact hv
  | cons q ps ih =>
    obtain ⟨k', v'⟩ := q
    intro p hp
    by_cases h : k' = k
    · simp only [setProperty, h, if_true, List.mem_cons] at hp
      rcases hp with hp | hp
      · rw [hp]; exact hv
      · exact hps p (List.mem_cons_of_mem _ hp)
    · simp only [setProperty, h, if_false, List.mem_cons] at hp
      rcases hp with hp | hp
      · rw [hp]; exact hps (k', v') (List.mem_cons_self _ _)
      · exact ih (fun x hx => hps x (List.mem_cons_of_mem _ hx)) p hp

theorem setProperty_membersJSON (ps : List (JSString × JSValue)) (k : JSString) (v : JSValue)
    (hps : membersJSON ps = true) (hv : isJSON v = true) :
    membersJSON (setProperty ps k v) = true := by
  rw [membersJSON_iff] at hps ⊢
  refine ⟨setProperty_values ps k v hps.1 hv, ?_⟩
  rw [setProperty_keys]
  split_ifs with h
  · exact hps.2
  · rw [List.nodup_append]
    refine ⟨hps.2, by simp, ?_⟩
    intro a ha hb
    simp only [List.mem_singleton] at hb
    subst hb
    exact h ha

theorem buildObject_membersJSON (ms : List (JSString × JSValue))
    (hms : ∀ p ∈ ms, isJSON p.2 = true) : membersJSON (buildObject ms) = true := by
  unfold buildObject
  have key : ∀ (acc : List (JSString × JSValue)), membersJSON acc = true →
      (∀ p ∈ ms, isJSON p.2 = true) →
      membersJSON (ms.foldl (fun ps m => setProperty ps m.1 m.2) acc) = true := by
    induction ms with
    | nil => intro acc hacc _; exact hacc
    | cons m ms ih =>
      intro acc hacc hall
      simp only [List.foldl_cons]
      exact ih (fun p hp => hms p (List.mem_cons_of_mem _ hp)) _
        (setProperty_membersJSON acc m.1 m.2 hacc (hall m (List.mem_cons_self _ _)))
        (fun p hp => hall p (List.mem_cons_of_mem _ hp))
  exact key [] rfl hms

/-- Every value that one of the three parsers returns is a JSON value. -/
theorem parse_results_json (fuel : Nat) :
    (∀ (input : List Nat) (v : JSValue) (r : List Nat),
      parseValue fuel input = .ok (v, r) → isJSON v = true) ∧
    (∀ (input : List Nat) (vs : List JSValue) (r : List Nat),
      parseElements fuel input = .ok (vs, r) → ∀ v ∈ vs, isJSON v = true) ∧
    (∀ (input : List Nat) (ms : List (JSString × JSValue)) (r : List Nat),
      parseMembers fuel input = .ok (ms, r) → ∀ p ∈ ms, isJSON p.2 = true) := by
  induction fuel with
  | zero =>
    refine ⟨fun input v r h => ?_, fun input vs r h => ?_, fun input ms r h => ?_⟩
    · rw [parseValue] at h; cases h
    · rw [parseElements] at h; cases h
    · rw [parseMembers] at h; cases h
  | succ fuel ih =>
    obtain ⟨ihV, ihE, ihM⟩ := ih
    refine ⟨fun input v r h => ?_, fun input vs r h => ?_, fun input ms r h => ?_⟩
    · -- parseValue
      cases input with
      | nil => rw [parseValue] at h; cases h
      | cons u t =>
        rw [parseValue] at h
        by_cases h110 : u = 110
        · simp only [h110, if_true] at h
          cases he : expect [117, 108, 108] t with
          | none => rw [he] at h; cases h
          | some r1 =>
            rw [he] at h
            simp only [Except.ok.injEq, Prod.mk.injEq] at h
            rw [← h.1]; rfl
        · simp only [h110, if_false] at h
          by_cases h116 : u = 116
          · simp only [h116, if_true] at h
            cases he : expect [114, 117, 101] t with
            | none => rw [he] at h; cases h
            | some r1 =>
              rw [he] at h
              simp only [Except.ok.injEq, Prod.mk.injEq] at h
              rw [← h.1]; rfl
          · simp only [h116, if_false] at h
            by_cases h102 : u = 102
            · simp only [h102, if_true] at h
              cases he : expect [97, 108, 115, 101] t with
              | none => rw [he] at h; cases h
              | some r1 =>
                rw [he] at h
                simp only [Except.ok.injEq, Prod.mk.injEq] at h
                rw [← h.1]; rfl
            · simp only [h102, if_false] at h
              by_cases h34 : u = 34
              · simp only [h34, if_true] at h
                cases hs : parseStringBody t with
                | none => rw [hs] at h; cases h
                | some p =>
                  obtain ⟨s, r1⟩ := p
                  rw [hs] at h
                  simp only [Except.ok.injEq, Prod.mk.injEq] at h
                  rw [← h.1]; rfl
              · simp only [h34, if_false] at h
                by_cases h91 : u = 91
                · simp only [h91, if_true] at h
                  cases hw : skipWS t with
                  | nil => rw [hw] at h; cases h
                  | cons c r1 =>
                    rw [hw] at h
                    simp only at h
                    by_cases h93 : c = 93
                    · simp only [h93, if_true, Except.ok.injEq, Prod.mk.injEq] at h
                      rw [← h.1]; rfl
                    · simp only [h93, if_false] at h
                      cases hp : parseElements fuel (c :: r1) with
                      | error e => rw [hp] at h; cases h
                      | ok p =>
                        obtain ⟨vs, r2⟩ := p
                        rw [hp] at h
                        simp only [Except.ok.injEq, Prod.mk.injEq] at h
                        rw [← h.1]
                        simp only [isJSON]
                        exact (allJSON_iff vs).mpr (ihE _ vs r2 hp)
                · simp only [h91, if_false] at h
                  by_cases h123 : u = 123
                  · simp only [h123, if_true] at h
                    cases hw : skipWS t with
                    | nil => rw [hw] at h; cases h
                    | cons c r1 =>
                      rw [hw] at h
                      simp only at h
                      by_cases h125 : c = 125
                      · simp only [h125, if_true, Except.ok.injEq, Prod.mk.injEq] at h
                        rw [← h.1]; rfl
                      · simp only [h125, if_false] at h
                        cases hp : parseMembers fuel (c :: r1) with
                        | error e => rw [hp] at h; cases h
                        | ok p =>
                          obtain ⟨ms, r2⟩ := p
                          rw [hp] at h
                          simp only [Except.ok.injEq, Prod.mk.injEq] at h
                          rw [← h.1]
                          simp only [isJSON]
                          exact buildObject_membersJSON ms (ihM _ ms r2 hp)
                  · simp only [h123, if_false] at h
                    cases hn : parseNumber (u :: t) with
                    | none => rw [hn] at h; cases h
                    | some p =>
                      obtain ⟨x, r1⟩ := p
                      rw [hn] at h
                      simp only [Except.ok.injEq, Prod.mk.injEq] at h
                      rw [← h.1]
                      simp only [isJSON]
                      exact parseNumber_isNormal hn
    · -- parseElements
      rw [parseElements] at h
      cases hp : parseValue fuel input with
      | error e => rw [hp] at h; cases h
      | ok p =>
        obtain ⟨v, r1⟩ := p
        have hv := ihV _ v r1 hp
        rw [hp] at h
        simp only at h
        cases hw : skipWS r1 with
        | nil => rw [hw] at h; cases h
        | cons c r2 =>
          rw [hw] at h
          simp only at h
          by_cases h93 : c = 93
          · simp only [h93, if_true, Except.ok.injEq, Prod.mk.injEq] at h
            rw [← h.1]
            intro x hx
            simp only [List.mem_singleton] at hx
            rw [hx]; exact hv
          · simp only [h93, if_false] at h
            by_cases h44 : c = 44
            · simp only [h44, if_true] at h
              cases hq : parseElements fuel (skipWS r2) with
              | error e => rw [hq] at h; cases h
              | ok q =>
                obtain ⟨vs', r3⟩ := q
                rw [hq] at h
                simp only [Except.ok.injEq, Prod.mk.injEq] at h
                rw [← h.1]
                intro x hx
                rcases List.mem_cons.mp hx with hx | hx
                · rw [hx]; exact hv
                · exact ihE _ vs' r3 hq x hx
            · simp only [h44, if_false] at h
              cases h
    · -- parseMembers
      cases input with
      | nil => rw [parseMembers] at h; cases h
      | cons q t =>
        rw [parseMembers] at h
        by_cases h34 : q = 34
        · simp only [h34, if_true] at h
          cases hs : parseStringBody t with
          | none => rw [hs] at h; cases h
          | some p =>
            obtain ⟨k, r1⟩ := p
            rw [hs] at h
            simp only at h
            cases hw : skipWS r1 with
            | nil => rw [hw] at h; cases h
            | cons c r2 =>
              rw [hw] at h
              simp only at h
              by_cases h58 : c = 58
              · simp only [h58, if_true] at h
                cases hp : parseValue fuel (skipWS r2) with
                | error e => rw [hp] at h; cases h
                | ok p =>
                  obtain ⟨v, r3⟩ := p
                  have hv := ihV _ v r3 hp
                  rw [hp] at h
                  simp only at h
                  cases hw3 : skipWS r3 with
                  | nil => rw [hw3] at h; cases h
                  | cons d r4 =>
                    rw [hw3] at h
                    simp only at h
                    by_cases h125 : d = 125
                    · simp only [h125, if_true, Except.ok.injEq, Prod.mk.injEq] at h
                      rw [← h.1]
                      intro x hx
                      simp only [List.mem_singleton] at hx
                      rw [hx]; exact hv
                    · simp only [h125, if_false] at h
                      by_cases h44 : d = 44
                      · simp only [h44, if_true] at h
                        cases hq : parseMembers fuel (skipWS r4) with
                        | error e => rw [hq] at h; cases h
                        | ok q =>
                          obtain ⟨ms', r5⟩ := q
                          rw [hq] at h
                          simp only [Except.ok.injEq, Prod.mk.injEq] at h
                          rw [← h.1]
                          intro x hx
                          rcases List.mem_cons.mp hx with hx | hx
                          · rw [hx]; exact hv
                          · exact ihM _ ms' r5 hq x hx
                      · simp only [h44, if_false] at h
                        cases h
              · simp only [h58, if_false] at h
                cases h
        · simp only [h34, if_false] at h
          cases h

/-- Every value that `JSON.parse` returns is a JSON value. -/
theorem parse_isJSON {text : Option JSString} {v : JSValue} (h : JSON.parse text = .ok v) :
    isJSON v = true := by
  unfold JSON.parse at h
  simp only at h
  cases hp : parseValue (2 * (text.getD nullText).length + 1) (skipWS (text.getD nullText)) with
  | error e => rw [hp] at h; cases h
  | ok p =>
    obtain ⟨v', r⟩ := p
    rw [hp] at h
    simp only at h
    split_ifs at h
    injection h with h
    rw [← h]
    exact (parse_results_json _).1 _ v' r hp

/-! ## JSON.parse after JSON.stringify -/

/-- For a JSON value, `JSON.stringify` returns a text and `JSON.parse` of that
text returns the value. -/
theorem parse_stringify (v : JSValue) (hv : isJSON v = true) :
    ∃ text, JSON.stringify v = .ok (some text) ∧ JSON.parse (some text) = .ok v := by
  obtain ⟨text, hs, ⟨u, b, hub, hws, _, _⟩, hread⟩ := serialize_value v hv
  refine ⟨text, hs, ?_⟩
  have hr := hread (2 * text.length + 1) [] (Or.inl rfl)
  have hnf := parseValue_never_outOfFuel text text (le_refl _)
  rw [List.append_nil] at hr
  have hok : parseValue (2 * text.length + 1) text = .ok (v, []) := by
    rcases hr with hr | hr
    · exact hr
    · exact absurd hr hnf
  have hskip : skipWS text = text := by
    rw [hub]; exact skipWS_cons_of_not_ws _ hws
  simp [JSON.parse, hskip, hok, skipWS]

/-! ## The handlers and the storage slot -/

theorem getItem_setItem_self {storage storage' : Storage} {key : JSString}
    {value : Option JSString} (h : localStorage.setItem storage key value = .ok storage') :
    localStorage.getItem storage' key = some (value.getD undefinedText) := by
  obtain ⟨_, h'⟩ := (setItem_ok_iff storage key value storage').mp h
  rw [h']
  exact lookupItem_putItem_self _ _ _

theorem saveGame_cases (data : JSValue) (w : World) :
    (∃ e, JSON.stringify data = .error e ∧ saveGame data w = { world := w, thrown := some e }) ∨
    (∃ text e, JSON.stringify data = .ok text ∧
      localStorage.setItem w.localStorage savedGameKey text = .error e ∧
      saveGame data w =
        { world := { w with
            setItemCalls := w.setItemCalls ++ [(savedGameKey, text.getD undefinedText)] },
          thrown := some e }) ∨
    (∃ text storage, JSON.stringify data = .ok text ∧
      localStorage.setItem w.localStorage savedGameKey text = .ok storage ∧
      saveGame data w =
        { world :=
            { localStorage := storage, gameLoaded := w.gameLoaded,
              setItemCalls := w.setItemCalls ++ [(savedGameKey, text.getD undefinedText)] },
          thrown := none }) := by
  cases hs : JSON.stringify data with
  | error e => exact Or.inl ⟨e, rfl, saveGame_of_stringify_error w hs⟩
  | ok text =>
    cases hw : localStorage.setItem w.localStorage savedGameKey text with
    | error e => exact Or.inr (Or.inl ⟨text, e, rfl, hw, saveGame_of_setItem_error w hs hw⟩)
    | ok storage => exact Or.inr (Or.inr ⟨text, storage, rfl, hw, saveGame_of_setItem_ok w hs hw⟩)

/-- A failed save leaves the storage area as it was. -/
theorem saveGame_storage_of_thrown {data : JSValue} {w : World} {e : JSError}
    (h : (saveGame data w).thrown = some e) :
    (saveGame data w).world.localStorage = w.localStorage := by
  rcases saveGame_cases data w with ⟨e', _, hw⟩ | ⟨text, e', _, _, hw⟩ | ⟨text, st, _, _, hw⟩
  · rw [hw]
  · rw [hw]
  · rw [hw] at h; cases h

/-- A save never touches the port `gameLoaded`. -/
theorem saveGame_gameLoaded (data : JSValue) (w : World) :
    (saveGame data w).world.gameLoaded = w.gameLoaded := by
  rcases saveGame_cases data w with ⟨e', _, hw⟩ | ⟨text, e', _, _, hw⟩ | ⟨text, st, _, _, hw⟩ <;>
    rw [hw]

/-- After a save that returned normally the slot holds the text that
`JSON.stringify` returned. -/
theorem saveGame_slot_of_ok {data : JSValue} {w : World} {text : Option JSString}
    (hs : JSON.stringify data = .ok text) (h : (saveGame data w).thrown = none) :
    localStorage.getItem (saveGame data w).world.localStorage savedGameKey =
      some (text.getD undefinedText) := by
  rcases saveGame_cases data w with ⟨e', hs', hw⟩ | ⟨t, e', _, _, hw⟩ | ⟨t, st, hs', hset, hw⟩
  · rw [hw] at h; cases h
  · rw [hw] at h; cases h
  · rw [hs] at hs'
    injection hs' with hs'
    subst hs'
    rw [hw]
    exact getItem_setItem_self hset

/-- A load leaves the storage area and the record of `setItem` calls as they
were, and adds to the port the value it parsed, if any. -/
theorem loadGame_cases (w : World) :
    (∃ json, JSON.parse (localStorage.getItem w.localStorage savedGameKey) = .ok json ∧
      loadGame w = { world := app.ports.gameLoaded.send json w, thrown := none }) ∨
    (∃ e, JSON.parse (localStorage.getItem w.localStorage savedGameKey) = .error e ∧
      loadGame w = { world := w, thrown := some e }) := by
  cases hp : JSON.parse (localStorage.getItem w.localStorage savedGameKey) with
  | ok json => exact Or.inl ⟨json, rfl, loadGame_of_parse_ok hp⟩
  | error e => exact Or.inr ⟨e, rfl, loadGame_of_parse_error hp⟩

theorem loadGame_storage (w : World) :
    (loadGame w).world.localStorage = w.localStorage ∧
      (loadGame w).world.setItemCalls = w.setItemCalls := by
  rcases loadGame_cases w with ⟨json, _, h⟩ | ⟨e, _, h⟩ <;> rw [h] <;> exact ⟨rfl, rfl⟩

/-- Loading when the slot holds the text of a JSON value delivers that value. -/
theorem loadGame_of_slot {w : World} {v : JSValue} {text : JSString}
    (hslot : localStorage.getItem w.localStorage savedGameKey = some text)
    (hparse : JSON.parse (some text) = .ok v) :
    loadGame w = { world := app.ports.gameLoaded.send v w, thrown := none } := by
  apply loadGame_of_parse_ok
  rw [hslot, hparse]

theorem loadGame_after_save {V : JSValue} {w : World} (hV : isJSON V = true)
    (hsave : (saveGame V w).thrown = none) :
    loadGame (saveGame V w).world =
      { world := app.ports.gameLoaded.send V (saveGame V w).world, thrown := none } := by
  obtain ⟨text, hs, hp⟩ := parse_stringify V hV
  exact loadGame_of_slot (saveGame_slot_of_ok hs hsave) hp

theorem sentBy_loadGame_ok {w : World} {json : JSValue}
    (h : loadGame w = { world := app.ports.gameLoaded.send json w, thrown := none }) :
    sentBy w (loadGame w) = [json] := by
  rw [h]
  simp [sentBy, app.ports.gameLoaded.send]

theorem sentBy_loadGame_error {w : World} {e : JSError}
    (h : loadGame w = { world := w, thrown := some e }) : sentBy w (loadGame w) = [] := by
  rw [h]
  simp [sentBy]

theorem lookupItem_eq_none_iff (items : List (JSString × JSString)) (k : JSString) :
    lookupItem items k = none ↔ k ∉ items.map Prod.fst := by
  induction items with
  | nil => simp [lookupItem]
  | cons p rest ih =>
    obtain ⟨k', v'⟩ := p
    by_cases h : k' = k
    · simp [lookupItem, h]
    · simp only [lookupItem, h, if_false, ih, List.map_cons, List.mem_cons, not_or]
      constructor
      · intro h'; exact ⟨fun e => h e.symm, h'⟩
      · intro h'; exact h'.2

theorem holdsSaved_of_storage_eq {w w' : World} {last : Option JSValue}
    (h : w'.localStorage = w.localStorage) (hw : HoldsSaved w last) : HoldsSaved w' last := by
  cases last with
  | none => simpa [HoldsSaved, h] using hw
  | some v => simpa [HoldsSaved, h] using hw

theorem holdsSaved_run (sigs : List Signal) :
    ∀ (w : World) (last : Option JSValue), HoldsSaved w last → savesJSON sigs = true →
      HoldsSaved (run sigs w) (lastSaved sigs w last) := by
  induction sigs with
  | nil => intro w last hw _; exact hw
  | cons s rest ih =>
    intro w last hw hj
    cases s with
    | saveGame data =>
      have hj' : isJSON data = true ∧ savesJSON rest = true := by
        simpa [savesJSON] using hj
      simp only [run, handle, lastSaved]
      apply ih _ _ _ hj'.2
      cases ht : (saveGame data w).thrown with
      | none =>
        obtain ⟨text, hs, _⟩ := parse_stringify data hj'.1
        simp only [if_true]
        exact ⟨hj'.1, text, hs, saveGame_slot_of_ok hs ht⟩
      | some e =>
        simp only [reduceCtorEq, if_false]
        exact holdsSaved_of_storage_eq (saveGame_storage_of_thrown ht) hw
    | loadGame =>
      simp only [run, handle, lastSaved]
      exact ih _ _ (holdsSaved_of_storage_eq (loadGame_storage w).1 hw) hj

theorem loadGame_of_holdsSaved {w : World} {last : Option JSValue} (hw : HoldsSaved w last) :
    loadGame w =
      { world := app.ports.gameLoaded.send (last.getD .null) w, thrown := none } := by
  cases last with
  | none =>
    apply loadGame_of_parse_ok
    have h : localStorage.getItem w.localStorage savedGameKey = none := hw
    rw [h]
    rfl
  | some v =>
    obtain ⟨hv, text, hs, hslot⟩ := hw
    obtain ⟨text', hs', hp⟩ := parse_stringify v hv
    rw [hs] at hs'
    injection hs' with hs'
    injection hs' with hs'
    subst hs'
    exact loadGame_of_slot hslot hp

theorem run_loads_of_holdsSaved (n : Nat) :
    ∀ (w : World) (v : JSValue), HoldsSaved w (some v) →
      (run (List.replicate n .loadGame) w).gameLoaded = w.gameLoaded ++ List.replicate n v ∧
      (run (List.replicate n .loadGame) w).localStorage = w.localStorage ∧
      successfulLoads (List.replicate n .loadGame) w = n := by
  induction n with
  | zero => intro w v _; simp [run, successfulLoads]
  | succ n ih =>
    intro w v hw
    have hl := loadGame_of_holdsSaved hw
    have hw' : HoldsSaved (loadGame w).world (some v) :=
      holdsSaved_of_storage_eq (loadGame_storage w).1 hw
    obtain ⟨h1, h2, h3⟩ := ih (loadGame w).world v hw'
    simp only [List.replicate_succ, run, handle, successfulLoads]
    refine ⟨?_, ?_, ?_⟩
    · rw [h1, hl]
      simp [app.ports.gameLoaded.send]
    · rw [h2]; exact (loadGame_storage w).1
    · rw [h3, hl]; simp; omega

theorem run_gameLoaded (sigs : List Signal) :
    ∀ w : World, (run sigs w).gameLoaded = w.gameLoaded ++ loadedValues sigs w ∧
      (loadedValues sigs w).length = successfulLoads sigs w := by
  induction sigs with
  | nil => intro w; simp [run, loadedValues, successfulLoads]
  | cons s rest ih =>
    intro w
    cases s with
    | saveGame data =>
      obtain ⟨h1, h2⟩ := ih (saveGame data w).world
      simp only [run, handle, loadedValues, successfulLoads]
      exact ⟨by rw [h1, saveGame_gameLoaded], h2⟩
    | loadGame =>
      obtain ⟨h1, h2⟩ := ih (loadGame w).world
      simp only [run, handle, loadedValues, successfulLoads]
      rcases loadGame_cases w with ⟨json, hp, hl⟩ | ⟨e, hp, hl⟩
      · refine ⟨?_, ?_⟩
        · rw [h1, hp]
          simp [hl, app.ports.gameLoaded.send]
        · rw [hp]
          simp only [List.length_append, List.length_singleton, h2]
          simp [hl]
      · refine ⟨?_, ?_⟩
        · rw [h1, hp]
          simp [hl]
        · rw [hp]
          simp only [List.nil_append, h2]
          simp [hl]

theorem savesJSON_of_append (pre post : List Signal) (h : savesJSON (pre ++ post) = true) :
    savesJSON pre = true := by
  induction pre with
  | nil => rfl
  | cons s rest ih =>
    cases s with
    | saveGame data =>
      simp only [List.cons_append, savesJSON, Bool.and_eq_true] at h ⊢
      exact ⟨h.1, ih h.2⟩
    | loadGame =>
      simp only [List.cons_append, savesJSON] at h ⊢
      exact ih h

/-! ## The host model on concrete texts -/

/-- The text `JSON.stringify` writes for the scenario's game. -/
theorem stringify_scenarioGame :
    JSON.stringify scenarioGame =
      .ok (some (utf16 "\x7b\"level\":3,\"score\":100\x7d")) := rfl

/-- White space around tokens, escapes, a fraction and an exponent are read. -/
theorem parse_spaced_text :
    JSON.parse (some (utf16 " \x7b \"a\" : [ 1 , -2.50 , 1e3 ] , \"b\\n\\u0041\" : null \x7d\n")) =
      .ok (.obj [(utf16 "a", .arr [.num (JSNumber.ofInt 1), .num ⟨true, [2, 5], 1⟩,
        .num (JSNumber.ofInt 1000)]), (utf16 "b\nA", .null)]) := rfl

/-- A key that occurs twice keeps its place and takes the later value. -/
theorem parse_repeated_key :
    JSON.parse (some (utf16 "\x7b\"a\":1,\"b\":2,\"a\":3\x7d")) =
      .ok (.obj [(utf16 "a", .num (JSNumber.ofInt 3)), (utf16 "b", .num (JSNumber.ofInt 2))]) :=
  rfl

/-- Texts that are not JSON are refused: a trailing comma, a leading zero, a
bare word, an unquoted key, a raw line feed in a string, the empty text. -/
theorem parse_refuses :
    JSON.parse (some (utf16 "[1,]")) = .error .SyntaxError ∧
      JSON.parse (some (utf16 "01")) = .error .SyntaxError ∧
      JSON.parse (some (utf16 "undefined")) = .error .SyntaxError ∧
      JSON.parse (some (utf16 "\x7ba:1\x7d")) = .error .SyntaxError ∧
      JSON.parse (some (utf16 "\"\n\"")) = .error .SyntaxError ∧
      JSON.parse (some (utf16 "")) = .error .SyntaxError :=
  ⟨rfl, rfl, rfl, rfl, rfl, rfl⟩

/-- Numbers are written as `Number::toString` lays them out. -/
theorem toString_layouts :
    (JSNumber.ofInt (-120)).toString = utf16 "-120" ∧
      (JSNumber.mk false [1, 2, 5] 1).toString = utf16 "1.25" ∧
      (JSNumber.mk false [1, 2, 5] (-5)).toString = utf16 "0.00000125" ∧
      (JSNumber.mk false [1, 2, 5] (-6)).toString = utf16 "1.25e-7" ∧
      (JSNumber.mk false [1] 21).toString = utf16 "100000000000000000000" ∧
      (JSNumber.mk false [1] 22).toString = utf16 "1e+21" :=
  ⟨rfl, rfl, rfl, rfl, rfl, rfl⟩

/-- Values that are not JSON values: `undefined` has no text, a BigInt throws,
NaN is written `null`, an `undefined` element is written `null` and an
`undefined` property is left out. -/
theorem stringify_other_values :
    JSON.stringify .undefined = .ok none ∧
      JSON.stringify (.bigint 1) = .error .TypeError ∧
      JSON.stringify .nan = .ok (some (utf16 "null")) ∧
      JSON.stringify (.arr [.undefined]) = .ok (some (utf16 "[null]")) ∧
      JSON.stringify (.obj [(utf16 "a", .undefined)]) = .ok (some (utf16 "\x7b\x7d")) :=
  ⟨rfl, rfl, rfl, rfl, rfl⟩

/-! ## The claims -/

/-- C1, as amended: for every JSON value `V` and every prior world, when the
`saveGame` handler run with `V` returns without an exception, the `loadGame`
handler run next does not fail and sends exactly `V` on `gameLoaded`: the port
holds what it held before, followed by `V`. -/
theorem save_then_load_delivers (V : JSValue) (w : World) (hV : isJSON V = true)
    (hsave : (saveGame V w).thrown = none) :
    (loadGame (saveGame V w).world).thrown = none ∧
      (loadGame (saveGame V w).world).world.gameLoaded = w.gameLoaded ++ [V] ∧
      sentBy (saveGame V w).world (loadGame (saveGame V w).world) = [V] := by
  have h := loadGame_after_save hV hsave
  refine ⟨by rw [h], ?_, sentBy_loadGame_ok h⟩
  rw [h]
  simp [app.ports.gameLoaded.send, saveGame_gameLoaded]

/-- C1, the scenario of the spec: saving level 3 and score 100 into an empty
storage area with room for it and loading delivers that value. -/
theorem save_then_load_delivers_witness :
    (loadGame (saveGame scenarioGame (World.fresh 100)).world).thrown = none ∧
      (loadGame (saveGame scenarioGame (World.fresh 100)).world).world.gameLoaded =
        (World.fresh 100).gameLoaded ++ [scenarioGame] ∧
      sentBy (saveGame scenarioGame (World.fresh 100)).world
        (loadGame (saveGame scenarioGame (World.fresh 100)).world) = [scenarioGame] :=
  save_then_load_delivers scenarioGame (World.fresh 100) (by decide) rfl

/-- C1 as stated fails: in a storage area that takes no data (quota 0) the
save of `true` throws a QuotaExceededError, and the load that follows sends
`null`, not `true`. -/
theorem save_then_load_counterexample :
    isJSON (.bool true) = true ∧
      (saveGame (.bool true) (World.fresh 0)).thrown = some .QuotaExceededError ∧
      sentBy (saveGame (.bool true) (World.fresh 0)).world
        (loadGame (saveGame (.bool true) (World.fresh 0)).world) = [JSValue.null] ∧
      sentBy (saveGame (.bool true) (World.fresh 0)).world
        (loadGame (saveGame (.bool true) (World.fresh 0)).world) ≠ [JSValue.bool true] :=
  ⟨rfl, rfl, rfl, fun h => by cases h⟩

/-- C2: when the storage area holds no entry `savedGame`, the `loadGame`
handler does not fail and sends `null` on `gameLoaded`: `getItem` returns
`null` and `JSON.parse` of it returns `null`. -/
theorem load_absent_delivers_null (w : World)
    (h : localStorage.getItem w.localStorage savedGameKey = none) :
    JSON.parse (localStorage.getItem w.localStorage savedGameKey) = .ok .null ∧
      loadGame w = { world := app.ports.gameLoaded.send .null w, thrown := none } := by
  have hp : JSON.parse (localStorage.getItem w.localStorage savedGameKey) = .ok .null := by
    rw [h]; rfl
  exact ⟨hp, loadGame_of_parse_ok hp⟩

/-- C2, the scenario of the spec: loading from an empty storage area. -/
theorem load_absent_delivers_null_witness :
    JSON.parse (localStorage.getItem (World.fresh 0).localStorage savedGameKey) = .ok .null ∧
      loadGame (World.fresh 0) =
        { world := app.ports.gameLoaded.send .null (World.fresh 0), thrown := none } :=
  load_absent_delivers_null (World.fresh 0) rfl

/-- C3, as amended: for all values `V1` and JSON values `V2`, when the save of
`V2` that follows a save of `V1` returns without an exception, the load that
follows delivers `V2` (and so not `V1`, unless they are equal); and after any
save of `V2` that returns without an exception the slot `savedGame` holds
exactly the text `JSON.stringify` gives for `V2`, whatever it held before. -/
theorem save_overwrites (V1 V2 : JSValue) (w : World) (hV2 : isJSON V2 = true)
    (hsave : (saveGame V2 (saveGame V1 w).world).thrown = none) :
    (loadGame (saveGame V2 (saveGame V1 w).world).world).thrown = none ∧
      sentBy (saveGame V2 (saveGame V1 w).world).world
        (loadGame (saveGame V2 (saveGame V1 w).world).world) = [V2] ∧
      (V1 ≠ V2 →
        sentBy (saveGame V2 (saveGame V1 w).world).world
          (loadGame (saveGame V2 (saveGame V1 w).world).world) ≠ [V1]) ∧
      ∃ text, JSON.stringify V2 = .ok (some text) ∧
        ∀ prior : World, (saveGame V2 prior).thrown = none →
          localStorage.getItem (saveGame V2 prior).world.localStorage savedGameKey =
            some text := by
  have h := loadGame_after_save hV2 hsave
  have hsent := sentBy_loadGame_ok h
  obtain ⟨text, hs, _⟩ := parse_stringify V2 hV2
  refine ⟨by rw [h], hsent, ?_, text, hs, fun prior hp => saveGame_slot_of_ok hs hp⟩
  intro hne heq
  rw [hsent] at heq
  injection heq with heq _
  exact hne heq.symm

/-- C3, the scenario of the spec: saving `a: 1`, then `b: 2`, then loading
delivers `b: 2`. -/
theorem save_overwrites_witness :
    (loadGame (saveGame (.obj [(utf16 "b", .num (JSNumber.ofInt 2))])
        (saveGame (.obj [(utf16 "a", .num (JSNumber.ofInt 1))])
          (World.fresh 100)).world).world).thrown = none ∧
      sentBy (saveGame (.obj [(utf16 "b", .num (JSNumber.ofInt 2))])
          (saveGame (.obj [(utf16 "a", .num (JSNumber.ofInt 1))]) (World.fresh 100)).world).world
        (loadGame (saveGame (.obj [(utf16 "b", .num (JSNumber.ofInt 2))])
          (saveGame (.obj [(utf16 "a", .num (JSNumber.ofInt 1))])
            (World.fresh 100)).world).world) =
        [.obj [(utf16 "b", .num (JSNumber.ofInt 2))]] :=
  ⟨(save_overwrites (.obj [(utf16 "a", .num (JSNumber.ofInt 1))])
      (.obj [(utf16 "b", .num (JSNumber.ofInt 2))]) (World.fresh 100) (by decide) rfl).1,
    (save_overwrites (.obj [(utf16 "a", .num (JSNumber.ofInt 1))])
      (.obj [(utf16 "b", .num (JSNumber.ofInt 2))]) (World.fresh 100) (by decide) rfl).2.1⟩

/-- C3 as stated fails: with a quota of 10 code units the save of `1` fits
(key and text take 10), the save of `true` that follows is refused with a
QuotaExceededError, and the load that follows delivers `1`, the first value,
not `true`. -/
theorem save_overwrites_counterexample :
    isJSON (.num (JSNumber.ofInt 1)) = true ∧ isJSON (.bool true) = true ∧
      (saveGame (.num (JSNumber.ofInt 1)) (World.fresh 10)).thrown = none ∧
      (saveGame (.bool true)
        (saveGame (.num (JSNumber.ofInt 1)) (World.fresh 10)).world).thrown =
        some .QuotaExceededError ∧
      sentBy (saveGame (.bool true) (saveGame (.num (JSNumber.ofInt 1)) (World.fresh 10)).world).world
        (loadGame (saveGame (.bool true)
          (saveGame (.num (JSNumber.ofInt 1)) (World.fresh 10)).world).world) =
        [.num (JSNumber.ofInt 1)] ∧
      JSValue.num (JSNumber.ofInt 1) ≠ JSValue.bool true :=
  ⟨by decide, rfl, rfl, rfl, rfl, fun h => by cases h⟩

/-- C4: for every world, every value `V` and every key `k` other than
`savedGame`, the entry under `k` is the same after the `saveGame` handler ran
with `V` as before (same text, or absent as before); every key present after
the run was present before or is `savedGame`, and no key is lost. -/
theorem save_touches_only_savedGame (w : World) (V : JSValue) :
    (∀ k, k ≠ savedGameKey →
      localStorage.getItem (saveGame V w).world.localStorage k =
          localStorage.getItem w.localStorage k ∧
        (k ∈ (saveGame V w).world.localStorage.keys ↔ k ∈ w.localStorage.keys)) ∧
      (∀ k, k ∈ (saveGame V w).world.localStorage.keys →
        k ∈ w.localStorage.keys ∨ k = savedGameKey) ∧
      (∀ k, k ∈ w.localStorage.keys → k ∈ (saveGame V w).world.localStorage.keys) := by
  rcases saveGame_cases V w with ⟨e, _, hw⟩ | ⟨text, e, _, _, hw⟩ | ⟨text, st, _, hset, hw⟩
  · rw [hw]
    exact ⟨fun k _ => ⟨rfl, Iff.rfl⟩, fun k hk => Or.inl hk, fun k hk => hk⟩
  · rw [hw]
    exact ⟨fun k _ => ⟨rfl, Iff.rfl⟩, fun k hk => Or.inl hk, fun k hk => hk⟩
  · rw [hw]
    obtain ⟨_, hst⟩ := (setItem_ok_iff _ _ _ _).mp hset
    subst hst
    simp only [Storage.keys, localStorage.getItem]
    refine ⟨fun k hk => ⟨lookupItem_putItem_of_ne _ _ _ _ hk, ?_⟩, fun k hk => ?_, fun k hk => ?_⟩
    · rw [mem_keys_putItem]
      exact ⟨fun h => h.resolve_right hk, Or.inl⟩
    · exact (mem_keys_putItem _ _ _ _).mp hk
    · exact (mem_keys_putItem _ _ _ _).mpr (Or.inl hk)

/-- C4 at a concrete storage area: saving next to an entry `theme` leaves that
entry as it was and adds the key `savedGame` only. -/
theorem save_touches_only_savedGame_witness :
    localStorage.getItem
        (saveGame scenarioGame
          { localStorage := { items := [(utf16 "theme", utf16 "dark")], quota := 100 },
            gameLoaded := [], setItemCalls := [] }).world.localStorage (utf16 "theme") =
      some (utf16 "dark") ∧
    (saveGame scenarioGame
        { localStorage := { items := [(utf16 "theme", utf16 "dark")], quota := 100 },
          gameLoaded := [], setItemCalls := [] }).world.localStorage.keys =
      [utf16 "theme", savedGameKey] :=
  ⟨((save_touches_only_savedGame
      { localStorage := { items := [(utf16 "theme", utf16 "dark")], quota := 100 },
        gameLoaded := [], setItemCalls := [] } scenarioGame).1 (utf16 "theme")
      (by decide)).1.trans rfl, rfl⟩

/-- C5: for every world whose entry `savedGame` is present and is not valid
JSON text, the `loadGame` handler fails with the SyntaxError of `JSON.parse`
and leaves the world as it was, so nothing is sent on `gameLoaded` (no `null`
or other fallback); conversely, when the handler fails, the entry is present
and is not valid JSON text, and the exception is that SyntaxError. -/
theorem load_fails_iff_invalid (w : World) :
    (∀ text, localStorage.getItem w.localStorage savedGameKey = some text →
      ¬ ValidJSONText text →
        loadGame w = { world := w, thrown := some .SyntaxError } ∧
          sentBy w (loadGame w) = []) ∧
      (∀ e, (loadGame w).thrown = some e →
        e = .SyntaxError ∧
          ∃ text, localStorage.getItem w.localStorage savedGameKey = some text ∧
            ¬ ValidJSONText text) := by
  constructor
  · intro text hslot hinvalid
    rcases loadGame_cases w with ⟨json, hp, _⟩ | ⟨e, hp, hl⟩
    · rw [hslot] at hp
      exact absurd ⟨json, hp⟩ hinvalid
    · have he := parse_error_is_SyntaxError hp
      subst he
      exact ⟨hl, sentBy_loadGame_error hl⟩
  · intro e hthrown
    rcases loadGame_cases w with ⟨json, _, hl⟩ | ⟨e', hp, hl⟩
    · rw [hl] at hthrown; cases hthrown
    · rw [hl] at hthrown
      injection hthrown with hthrown
      subst hthrown
      refine ⟨parse_error_is_SyntaxError hp, ?_⟩
      cases hslot : localStorage.getItem w.localStorage savedGameKey with
      | none =>
        rw [hslot] at hp
        cases hp
      | some text =>
        refine ⟨text, rfl, ?_⟩
        rintro ⟨v, hv⟩
        rw [hslot, hv] at hp
        cases hp

/-- C5 at a concrete storage area: the entry `savedGame` holds the text
`undefined`, which is not JSON; the load throws a SyntaxError and sends
nothing. -/
theorem load_fails_iff_invalid_witness :
    loadGame
        { localStorage := { items := [(savedGameKey, undefinedText)], quota := 100 },
          gameLoaded := [], setItemCalls := [] } =
      { world :=
          { localStorage := { items := [(savedGameKey, undefinedText)], quota := 100 },
            gameLoaded := [], setItemCalls := [] },
        thrown := some .SyntaxError } ∧
    sentBy
        { localStorage := { items := [(savedGameKey, undefinedText)], quota := 100 },
          gameLoaded := [], setItemCalls := [] }
        (loadGame
          { localStorage := { items := [(savedGameKey, undefinedText)], quota := 100 },
            gameLoaded := [], setItemCalls := [] }) = [] :=
  (load_fails_iff_invalid
    { localStorage := { items := [(savedGameKey, undefinedText)], quota := 100 },
      gameLoaded := [], setItemCalls := [] }).1 undefinedText rfl
    (fun ⟨_, hv⟩ => by cases hv)

/-- C6: the `saveGame` handler fails exactly when `JSON.stringify` throws or
`localStorage.setItem` throws, and the exception that escapes is that one.
When `JSON.stringify` throws, the world is left as it was: no call of
`setItem` is made.  When `setItem` throws, exactly one call of it was made (no
second attempt), and the storage area, the slot `savedGame` in it, is left as
it was. -/
theorem save_failure (data : JSValue) (w : World) :
    ((saveGame data w).thrown ≠ none ↔
      (∃ e, JSON.stringify data = .error e) ∨
        ∃ text e, JSON.stringify data = .ok text ∧
          localStorage.setItem w.localStorage savedGameKey text = .error e) ∧
      (∀ e, JSON.stringify data = .error e →
        saveGame data w = { world := w, thrown := some e }) ∧
      (∀ text e, JSON.stringify data = .ok text →
        localStorage.setItem w.localStorage savedGameKey text = .error e →
          (saveGame data w).thrown = some e ∧
            (saveGame data w).world.setItemCalls =
              w.setItemCalls ++ [(savedGameKey, text.getD undefinedText)] ∧
            (saveGame data w).world.localStorage = w.localStorage ∧
            localStorage.getItem (saveGame data w).world.localStorage savedGameKey =
              localStorage.getItem w.localStorage savedGameKey) := by
  refine ⟨?_, fun e he => saveGame_of_stringify_error w he, ?_⟩
  · rcases saveGame_cases data w with ⟨e, hs, hw⟩ | ⟨text, e, hs, hset, hw⟩ |
      ⟨text, st, hs, hset, hw⟩
    · rw [hw]
      exact ⟨fun _ => Or.inl ⟨e, hs⟩, fun _ => by simp⟩
    · rw [hw]
      exact ⟨fun _ => Or.inr ⟨text, e, hs, hset⟩, fun _ => by simp⟩
    · rw [hw]
      constructor
      · intro h; exact absurd rfl h
      · rintro (⟨e, he⟩ | ⟨t, e, ht, he⟩)
        · rw [hs] at he; cases he
        · rw [hs] at ht
          injection ht with ht
          subst ht
          rw [hset] at he
          cases he
  · intro text e hs hset
    rw [saveGame_of_setItem_error w hs hset]
    exact ⟨rfl, rfl, rfl, rfl⟩

/-- C6 at concrete inputs: a BigInt makes `JSON.stringify` throw a TypeError
and the world stays as it was; in a storage area of quota 0 the write of
`true` throws a QuotaExceededError after one call of `setItem`. -/
theorem save_failure_witness :
    saveGame (.bigint 1) (World.fresh 100) =
        { world := World.fresh 100, thrown := some .TypeError } ∧
      (saveGame (.bool true) (World.fresh 0)).thrown = some .QuotaExceededError ∧
      (saveGame (.bool true) (World.fresh 0)).world.setItemCalls =
        (World.fresh 0).setItemCalls ++ [(savedGameKey, (some trueText).getD undefinedText)] :=
  ⟨(save_failure (.bigint 1) (World.fresh 100)).2.1 .TypeError rfl,
    ((save_failure (.bool true) (World.fresh 0)).2.2 (some trueText) .QuotaExceededError
      rfl rfl).1,
    ((save_failure (.bool true) (World.fresh 0)).2.2 (some trueText) .QuotaExceededError
      rfl rfl).2.1⟩

/-- C7, as amended: for every world `w0` the storage area (the entry
`savedGame` and every other key) and the record of `setItem` calls are the
same before and after the `loadGame` handler runs, whether it succeeds or
fails; hence after a save of a JSON value `V` that returned without an
exception, `n` consecutive loads all succeed, each delivers `V`, and the
storage area stays as the save left it. -/
theorem load_is_read_only (w0 : World) (V : JSValue) (w : World) (n : Nat)
    (hV : isJSON V = true) (hsave : (saveGame V w).thrown = none) :
    ((loadGame w0).world.localStorage = w0.localStorage ∧
        (loadGame w0).world.setItemCalls = w0.setItemCalls) ∧
      (run (List.replicate n .loadGame) (saveGame V w).world).gameLoaded =
        w.gameLoaded ++ List.replicate n V ∧
      (run (List.replicate n .loadGame) (saveGame V w).world).localStorage =
        (saveGame V w).world.localStorage ∧
      successfulLoads (List.replicate n .loadGame) (saveGame V w).world = n := by
  obtain ⟨text, hs, _⟩ := parse_stringify V hV
  have hw : HoldsSaved (saveGame V w).world (some V) :=
    ⟨hV, text, hs, saveGame_slot_of_ok hs hsave⟩
  obtain ⟨h1, h2, h3⟩ := run_loads_of_holdsSaved n (saveGame V w).world V hw
  refine ⟨loadGame_storage w0, ?_, h2, h3⟩
  rw [h1, saveGame_gameLoaded]

/-- C7 at a concrete input: a load of a storage area with unparsable content
leaves it as it was, and three loads after the save of the scenario's game
each deliver that game. -/
theorem load_is_read_only_witness :
    ((loadGame
          { localStorage := { items := [(savedGameKey, undefinedText)], quota := 100 },
            gameLoaded := [], setItemCalls := [] }).world.localStorage =
        { items := [(savedGameKey, undefinedText)], quota := 100 } ∧
      (loadGame
          { localStorage := { items := [(savedGameKey, undefinedText)], quota := 100 },
            gameLoaded := [], setItemCalls := [] }).world.setItemCalls = []) ∧
      (run (List.replicate 3 .loadGame) (saveGame scenarioGame (World.fresh 100)).world).gameLoaded =
        (World.fresh 100).gameLoaded ++ List.replicate 3 scenarioGame ∧
      (run (List.replicate 3 .loadGame)
          (saveGame scenarioGame (World.fresh 100)).world).localStorage =
        (saveGame scenarioGame (World.fresh 100)).world.localStorage ∧
      successfulLoads (List.replicate 3 .loadGame)
          (saveGame scenarioGame (World.fresh 100)).world = 3 :=
  load_is_read_only
    { localStorage := { items := [(savedGameKey, undefinedText)], quota := 100 },
      gameLoaded := [], setItemCalls := [] }
    scenarioGame (World.fresh 100) 3 (by decide) rfl

/-- C7 as stated fails in its last part: in a storage area of quota 0 the save
of `false` throws a QuotaExceededError, and the two loads that follow each
deliver `null`, not `false`. -/
theorem load_is_read_only_counterexample :
    isJSON (.bool false) = true ∧
      (saveGame (.bool false) (World.fresh 0)).thrown = some .QuotaExceededError ∧
      (run [.loadGame, .loadGame] (saveGame (.bool false) (World.fresh 0)).world).gameLoaded =
        [JSValue.null, JSValue.null] ∧
      (run [.loadGame, .loadGame] (saveGame (.bool false) (World.fresh 0)).world).gameLoaded ≠
        [JSValue.bool false, JSValue.bool false] :=
  ⟨rfl, rfl, rfl, fun h => by cases h⟩

/-- C8: the outcome of the `loadGame` handler is a function of the content of
the entry `savedGame` alone: in two worlds that agree on that entry (and may
differ in every other key, in the quota and in what was sent and written
before), the handler fails with the same exception or fails in neither, and
sends the same messages. -/
theorem load_depends_on_slot_only (w1 w2 : World)
    (h : localStorage.getItem w1.localStorage savedGameKey =
      localStorage.getItem w2.localStorage savedGameKey) :
    (loadGame w1).thrown = (loadGame w2).thrown ∧
      sentBy w1 (loadGame w1) = sentBy w2 (loadGame w2) := by
  rcases loadGame_cases w1 with ⟨j1, hp1, hl1⟩ | ⟨e1, hp1, hl1⟩ <;>
    rcases loadGame_cases w2 with ⟨j2, hp2, hl2⟩ | ⟨e2, hp2, hl2⟩ <;>
    rw [h, hp2] at hp1
  · injection hp1 with hp1
    subst hp1
    rw [sentBy_loadGame_ok hl1, sentBy_loadGame_ok hl2, hl1, hl2]
    exact ⟨rfl, rfl⟩
  · cases hp1
  · cases hp1
  · injection hp1 with hp1
    subst hp1
    rw [sentBy_loadGame_error hl1, sentBy_loadGame_error hl2, hl1, hl2]
    exact ⟨rfl, rfl⟩

/-- C8 at concrete worlds: the same entry `savedGame`, next to another key and
after other traffic in one of them. -/
theorem load_depends_on_slot_only_witness :
    (loadGame
        { localStorage := { items := [(savedGameKey, trueText)], quota := 50 },
          gameLoaded := [], setItemCalls := [] }).thrown =
      (loadGame
        { localStorage :=
            { items := [(utf16 "theme", utf16 "dark"), (savedGameKey, trueText)], quota := 900 },
          gameLoaded := [.null, .bool false],
          setItemCalls := [(savedGameKey, trueText)] }).thrown ∧
    sentBy
        { localStorage := { items := [(savedGameKey, trueText)], quota := 50 },
          gameLoaded := [], setItemCalls := [] }
        (loadGame
          { localStorage := { items := [(savedGameKey, trueText)], quota := 50 },
            gameLoaded := [], setItemCalls := [] }) =
      sentBy
        { localStorage :=
            { items := [(utf16 "theme", utf16 "dark"), (savedGameKey, trueText)], quota := 900 },
          gameLoaded := [.null, .bool false],
          setItemCalls := [(savedGameKey, trueText)] }
        (loadGame
          { localStorage :=
              { items := [(utf16 "theme", utf16 "dark"), (savedGameKey, trueText)],
                quota := 900 },
            gameLoaded := [.null, .bool false],
            setItemCalls := [(savedGameKey, trueText)] }) :=
  load_depends_on_slot_only _ _ rfl

/-- C9, as amended: starting from a storage area with no entry `savedGame`
and running any finite sequence of `saveGame` signals with JSON values and
`loadGame` signals, at every point of the sequence the entry `savedGame` is
absent or valid JSON text, and every load of the sequence succeeds and
delivers the value of the most recent save before it that returned without an
exception, `null` when there is none. -/
theorem reachable_slot_invariant (sigs : List Signal) (w : World)
    (hstart : localStorage.getItem w.localStorage savedGameKey = none)
    (hjson : savesJSON sigs = true) :
    (∀ pre post, sigs = pre ++ post →
      localStorage.getItem (run pre w).localStorage savedGameKey = none ∨
        ∃ text, localStorage.getItem (run pre w).localStorage savedGameKey = some text ∧
          ValidJSONText text) ∧
      (∀ pre post, sigs = pre ++ Signal.loadGame :: post →
        loadGame (run pre w) =
          { world := app.ports.gameLoaded.send ((lastSaved pre w none).getD .null) (run pre w),
            thrown := none }) := by
  constructor
  · intro pre post hsplit
    have hpre : savesJSON pre = true := savesJSON_of_append pre post (hsplit ▸ hjson)
    have hinv := holdsSaved_run pre w none hstart hpre
    cases hlast : lastSaved pre w none with
    | none =>
      rw [hlast] at hinv
      exact Or.inl hinv
    | some v =>
      rw [hlast] at hinv
      obtain ⟨hv, text, hs, hslot⟩ := hinv
      obtain ⟨text', hs', hp⟩ := parse_stringify v hv
      rw [hs] at hs'
      injection hs' with hs'
      injection hs' with hs'
      subst hs'
      exact Or.inr ⟨text, hslot, v, hp⟩
  · intro pre post hsplit
    have hpre : savesJSON pre = true := savesJSON_of_append pre _ (hsplit ▸ hjson)
    exact loadGame_of_holdsSaved (holdsSaved_run pre w none hstart hpre)

/-- C9 at a concrete sequence: load, save the scenario's game, load, save
`null`, load; the second load delivers the game and the third `null`, the
value saved last. -/
theorem reachable_slot_invariant_witness :
    loadGame (run [.loadGame, .saveGame scenarioGame] (World.fresh 100)) =
        { world :=
            app.ports.gameLoaded.send scenarioGame
              (run [.loadGame, .saveGame scenarioGame] (World.fresh 100)),
          thrown := none } ∧
      loadGame
          (run [.loadGame, .saveGame scenarioGame, .loadGame, .saveGame .null]
            (World.fresh 100)) =
        { world :=
            app.ports.gameLoaded.send .null
              (run [.loadGame, .saveGame scenarioGame, .loadGame, .saveGame .null]
                (World.fresh 100)),
          thrown := none } :=
  ⟨(reachable_slot_invariant
      [.loadGame, .saveGame scenarioGame, .loadGame, .saveGame .null, .loadGame]
      (World.fresh 100) rfl (by decide)).2 [.loadGame, .saveGame scenarioGame]
      [.saveGame .null, .loadGame] rfl,
    (reachable_slot_invariant
      [.loadGame, .saveGame scenarioGame, .loadGame, .saveGame .null, .loadGame]
      (World.fresh 100) rfl (by decide)).2
      [.loadGame, .saveGame scenarioGame, .loadGame, .saveGame .null] [] rfl⟩

/-- C9 as stated fails: from an empty storage area of quota 10, the save of
`1` succeeds and the save of `true` that follows is refused; the next load
delivers `1`, while the most recent save of the sequence is that of `true`. -/
theorem reachable_slot_invariant_counterexample :
    localStorage.getItem (World.fresh 10).localStorage savedGameKey = none ∧
      savesJSON [.saveGame (.num (JSNumber.ofInt 1)), .saveGame (.bool true)] = true ∧
      lastRequested [.saveGame (.num (JSNumber.ofInt 1)), .saveGame (.bool true)] none =
        some (.bool true) ∧
      sentBy (run [.saveGame (.num (JSNumber.ofInt 1)), .saveGame (.bool true)] (World.fresh 10))
        (loadGame
          (run [.saveGame (.num (JSNumber.ofInt 1)), .saveGame (.bool true)] (World.fresh 10))) =
        [.num (JSNumber.ofInt 1)] ∧
      JSValue.num (JSNumber.ofInt 1) ≠ JSValue.bool true ∧
      JSValue.num (JSNumber.ofInt 1) ≠ JSValue.null :=
  ⟨rfl, by decide, rfl, rfl, fun h => (by cases h), fun h => (by cases h)⟩

/-- C10: a run of the `loadGame` handler that returns without an exception
adds exactly one message to the port `gameLoaded`, one that fails adds none,
and a run of the `saveGame` handler adds none; so after any sequence of
signals the port holds what it held before followed by the values of the
successful loads in the order of the loads, and their number is the number of
successful loads. -/
theorem signal_accounting (sigs : List Signal) (w : World) (data : JSValue) :
    ((loadGame w).thrown = none →
        ∃ json, (loadGame w).world.gameLoaded = w.gameLoaded ++ [json]) ∧
      ((loadGame w).thrown ≠ none → (loadGame w).world.gameLoaded = w.gameLoaded) ∧
      (saveGame data w).world.gameLoaded = w.gameLoaded ∧
      (run sigs w).gameLoaded = w.gameLoaded ++ loadedValues sigs w ∧
      (loadedValues sigs w).length = successfulLoads sigs w := by
  refine ⟨?_, ?_, saveGame_gameLoaded data w, (run_gameLoaded sigs w).1,
    (run_gameLoaded sigs w).2⟩
  · intro h
    rcases loadGame_cases w with ⟨json, _, hl⟩ | ⟨e, _, hl⟩
    · exact ⟨json, by rw [hl]; rfl⟩
    · rw [hl] at h; cases h
  · intro h
    rcases loadGame_cases w with ⟨json, _, hl⟩ | ⟨e, _, hl⟩
    · rw [hl] at h; exact absurd rfl h
    · rw [hl]

/-- C10 at a concrete sequence: of three loads the middle one finds
unparsable text (the save of `undefined` wrote the text `undefined`) and
fails; the port receives two messages, `null` and then the game. -/
theorem signal_accounting_witness :
    (run [.loadGame, .saveGame .undefined, .loadGame, .saveGame scenarioGame, .loadGame]
        (World.fresh 100)).gameLoaded = [JSValue.null, scenarioGame] ∧
      successfulLoads
        [.loadGame, .saveGame .undefined, .loadGame, .saveGame scenarioGame, .loadGame]
        (World.fresh 100) = 2 :=
  ⟨(signal_accounting
      [.loadGame, .saveGame .undefined, .loadGame, .saveGame scenarioGame, .loadGame]
      (World.fresh 100) .null).2.2.2.1.trans rfl,
    (signal_accounting
      [.loadGame, .saveGame .undefined, .loadGame, .saveGame scenarioGame, .loadGame]
      (World.fresh 100) .null).2.2.2.2.symm.trans rfl⟩

/-! ## Further properties -/

/-- For every JSON value `V`, `JSON.stringify(V)` returns a text and
`JSON.parse` of that text returns `V`: the round trip of the two host functions
as the script composes them (the text written by the `saveGame` subscriber is
the text `readLocalStorage` parses). -/
theorem stringify_then_parse (V : JSValue) (hV : isJSON V = true) :
    ∃ text, JSON.stringify V = .ok (some text) ∧ JSON.parse (some text) = .ok V :=
  parse_stringify V hV

/-- The round trip of the host functions on the scenario's game. -/
theorem stringify_then_parse_witness :
    ∃ text, JSON.stringify scenarioGame = .ok (some text) ∧
      JSON.parse (some text) = .ok scenarioGame :=
  stringify_then_parse scenarioGame (by decide)

/-- A value that is not a JSON value need not come back: when the save of NaN
returns without an exception, the slot `savedGame` holds the text `null` and
the load that follows delivers `null`. -/
theorem save_nan_loads_null (w : World) (hsave : (saveGame .nan w).thrown = none) :
    localStorage.getItem (saveGame .nan w).world.localStorage savedGameKey = some nullText ∧
      (loadGame (saveGame .nan w).world).thrown = none ∧
      sentBy (saveGame .nan w).world (loadGame (saveGame .nan w).world) = [JSValue.null] := by
  have hslot : localStorage.getItem (saveGame .nan w).world.localStorage savedGameKey =
      some nullText := @saveGame_slot_of_ok .nan w (some nullText) rfl hsave
  have hl := @loadGame_of_slot (saveGame .nan w).world .null nullText hslot rfl
  exact ⟨hslot, by rw [hl], sentBy_loadGame_ok hl⟩

/-- The save of NaN into an empty storage area with room for it. -/
theorem save_nan_loads_null_witness :
    localStorage.getItem (saveGame .nan (World.fresh 100)).world.localStorage savedGameKey =
        some nullText ∧
      (loadGame (saveGame .nan (World.fresh 100)).world).thrown = none ∧
      sentBy (saveGame .nan (World.fresh 100)).world
        (loadGame (saveGame .nan (World.fresh 100)).world) = [JSValue.null] :=
  save_nan_loads_null (World.fresh 100) rfl

/-- Whatever the storage area holds, every value the `loadGame` handler sends
on `gameLoaded` is a JSON value: null, a boolean, a finite number, a string,
or an array or object of such values. -/
theorem load_delivers_json (w : World) : ∀ v ∈ sentBy w (loadGame w), isJSON v = true := by
  intro v hv
  rcases loadGame_cases w with ⟨json, hp, hl⟩ | ⟨e, _, hl⟩
  · rw [sentBy_loadGame_ok hl, List.mem_singleton] at hv
    rw [hv]
    exact parse_isJSON hp
  · rw [sentBy_loadGame_error hl] at hv
    cases hv

end Okiya
